import Mathlib

/-!
# Verification of the `recipetracksystem` ingredient parser

Shallow embedding of `src/recipetracksystem.py` (the ingredient-line
parsing pipeline) and proofs about the claims of the specification.

Modelling conventions:
* Python exceptions are modelled with `Except` / option-like result types.
  The errors caught by `QUANTITY_PARSER_ERRORS = (ValueError, TypeError,
  SyntaxError)` are folded into a single "caught" outcome; errors that the
  source does *not* catch (`ZeroDivisionError` from `node.left / node.right`,
  `IndexError` from out-of-range list accesses) are modelled explicitly.
* Python floats are modelled as exact rationals `ℚ`.  The only rendering
  of float *values* any claim depends on is `str()` of a float parsed from
  a decimal literal (claim C5).  CPython prints the shortest decimal
  string that round-trips through the IEEE-754 double, which coincides
  with the exact decimal expansion for literals of at most 15 significant
  digits; the canonical float literals of C5 are restricted accordingly
  (see `IsCanonFloat`).
* `str()` of an `ast` node object (CPython prints `<ast.C object at 0x…>`,
  where the address varies between runs) is modelled by an explicit
  rendering environment `AstRepr` that every pipeline definition takes as a
  parameter; theorems quantify over it.  A concrete default instance with a
  fixed placeholder address is provided for closed evaluations.
* The embedded tokenizer/parser covers the fragment of Python expression
  syntax reachable from whitespace-delimited recipe tokens: integer and
  float literals (without `_` separators, exponents, or imaginary
  suffixes), identifiers over ASCII letters/`_`/digits, the operators
  `/ + -`, unary `+`/`-`, parentheses, commas (tuples), and internal
  spaces.  Tokens containing characters outside this alphabet fail to
  tokenize, which the source observes as a caught `SyntaxError`.
* Known fragment boundaries, all outside every claim and all observably
  equivalent to "classifies as not a quantity" except where noted:
  string/hex/binary/octal literals, digit separators (`1_0`), exponent
  and imaginary suffixes (`1e5`, `2j`), and non-ASCII identifiers are not
  tokenized; the keywords `True`/`False` (which CPython's `literal_eval`
  accepts as constants) and bare statement keywords such as `pass` (on
  which `ConstantMerger` would die with an uncaught `AttributeError`)
  are treated as plain names; `None` classifies as "not a quantity" in
  both (the first strategy returns Python's `None` for it); `str.split()`
  is modelled over the six ASCII whitespace characters; and the
  `unicodedata.numeric` table is restricted to digits and
  vulgar-fraction glyphs.
-/

/-- Uncaught Python errors that the pipeline can raise. -/
inductive PyErr where
  | indexError
  | zeroDivisionError
deriving DecidableEq, Repr

/-- The binary operators handled by `ConstantMerger.visit_BinOp`. -/
inductive PyBinOp where
  | div | sub | add
deriving DecidableEq, Repr

/-- The relevant fragment of Python `ast` expression nodes, as produced by
`ast.parse` on a single token (`Constant`, `Name`, `BinOp` with
`Div`/`Sub`/`Add`, `UnaryOp` with `USub`/`UAdd`, `Tuple`). -/
inductive PyExpr where
  | constInt (n : Nat)
  | constFloat (q : ℚ)
  | name (id : String)
  | binop (op : PyBinOp) (l r : PyExpr)
  | unary (neg : Bool) (e : PyExpr)
  | tuple (elts : List PyExpr)
deriving Repr

/-- Python value fragment returned by the classification strategies
(`ast.literal_eval` values, `unicodedata.numeric` floats, and the
float/str results of `ConstantMerger.merge`). -/
inductive PyObj where
  | int (n : Int)
  | float (q : ℚ)
  | str (s : String)
  | tuple (elts : List PyObj)
deriving Repr

/-- Result of `ConstantMerger.visit` on one node: either a plain Python
value (`int`/`float`/`str`) or a residual AST node left in the tree
(`BinOp(Add)` nodes with already-visited children, `UnaryOp` nodes, and
`Name` nodes have no visitor and are returned unchanged by
`generic_visit`). -/
inductive VisitRes where
  | int (n : Int)
  | float (q : ℚ)
  | str (s : String)
  | addNode (l r : VisitRes)
  | unaryNode (neg : Bool) (v : VisitRes)
  | nameNode (id : String)
deriving DecidableEq, Repr

/-- Rendering environment for `str()` applied to AST node objects.  CPython
renders `<ast.ClassName object at 0xADDRESS>` where the address is the
object identity of that run; the claims below never depend on it, so the
rendering functions are kept abstract and passed to every definition that
can reach an `str(node)` call.  `raw` renders an unvisited parse node
(used by `visit_Tuple` on its child nodes); `res` renders a residual node
returned by a visit (used by the f-string in the `Sub` case). -/
structure AstRepr where
  raw : PyExpr → String
  res : VisitRes → String

/-- `ast` class name of an unvisited node, as it appears in its repr. -/
def rawClassName : PyExpr → String
  | .constInt _ => "Constant"
  | .constFloat _ => "Constant"
  | .name _ => "Name"
  | .binop _ _ _ => "BinOp"
  | .unary _ _ => "UnaryOp"
  | .tuple _ => "Tuple"

/-- `ast` class name of a residual visited node (only the node cases are
ever rendered; value cases are unreachable through `str(node)`). -/
def resClassName : VisitRes → String
  | .addNode _ _ => "BinOp"
  | .unaryNode _ _ => "UnaryOp"
  | .nameNode _ => "Name"
  | _ => "Value"

/-- Concrete `AstRepr` with a fixed placeholder address, standing for one
particular CPython run.  Used for closed-term evaluations; all universal
statements quantify over the environment instead. -/
def defaultRepr : AstRepr :=
  ⟨fun e => "<ast." ++ rawClassName e ++ " object at 0x7f3a9c2e4d10>",
   fun v => "<ast." ++ resClassName v ++ " object at 0x7f3a9c2e4d10>"⟩

/-- Decimal digit character of `d` (for `d < 10`). -/
def digitChar (d : Nat) : Char := Char.ofNat (d + 48)

/-- Numeric value of a decimal digit character. -/
def digitVal (c : Char) : Nat := c.toNat - 48

/-- Value of a most-significant-first decimal digit string. -/
def digitsToNat (l : List Char) : Nat := l.foldl (fun a c => 10 * a + digitVal c) 0

/-- Fuel-driven digit extraction; any `fuel > n` is enough, since `n / 10`
shrinks at every step. -/
def natDigitsAux : Nat → Nat → List Char
  | 0, _ => []
  | fuel + 1, n =>
    if n < 10 then [digitChar n]
    else natDigitsAux fuel (n / 10) ++ [digitChar (n % 10)]

/-- Most-significant-first decimal digits of `n` (canonical: no leading
zeros, `0` rendered as `"0"`). -/
def natDigits (n : Nat) : List Char := natDigitsAux (n + 1) n

/-- Python `str()` of a natural number, as rendered by an f-string. -/
def natStr (n : Nat) : String := String.mk (natDigits n)

/-- Python `str()` of an `int`. -/
def intStr (i : Int) : String :=
  if i < 0 then "-" ++ natStr i.natAbs else natStr i.natAbs

/-- Python `str()` of a float, for rationals with a finite decimal
expansion of at most 17 places (float reprs of the dyadic values arising
in the modelled fragment are of this shape); other rationals get a
best-effort 17-place rendering.  The only claim that depends on this
rendering (C5) uses it on canonical decimal literals of at most 15
significant digits, where it agrees with CPython's shortest-round-trip
float repr (see `IsCanonFloat`). -/
def pyFloatRepr (q : ℚ) : String :=
  let sign := if q < 0 then "-" else ""
  let a := |q|
  let k := (List.range 18).find? (fun k => ((a * (10 : ℚ) ^ k).den = 1))
  match k with
  | some 0 => sign ++ natStr a.num.natAbs ++ ".0"
  | some k =>
      let m := (a * (10 : ℚ) ^ k).num.natAbs
      let ip := m / 10 ^ k
      let fp := m % 10 ^ k
      let fpDigits := natDigits fp
      let pad := List.replicate (k - fpDigits.length) '0'
      sign ++ natStr ip ++ "." ++ String.mk (pad ++ fpDigits)
  | none =>
      let m := (a * (10 : ℚ) ^ 17).num.natAbs / (a * (10 : ℚ) ^ 17).den
      sign ++ natStr (m / 10 ^ 17) ++ "." ++ natStr (m % 10 ^ 17)

/-- Tokens of the embedded Python tokenizer fragment. -/
inductive Tok where
  | int (n : Nat)
  | float (q : ℚ)
  | name (s : String)
  | lparen | rparen | comma | slash | plus | minus
deriving DecidableEq, Repr

/-- Whitespace characters for Python's `str.split()` and tokenizer. -/
def isPySpace (c : Char) : Bool :=
  c = ' ' || c = '\t' || c = '\n' || c = '\r' || c = '\x0b' || c = '\x0c'

/-- Identifier start characters (ASCII fragment). -/
def isIdentStart (c : Char) : Bool := c.isAlpha || c = '_'

/-- Identifier continuation characters (ASCII fragment). -/
def isIdentChar (c : Char) : Bool := c.isAlpha || c = '_' || c.isDigit

/-- Value of the decimal literal with integer digits `ip` and fractional
digits `fp`. -/
def decimalVal (ip fp : List Char) : ℚ :=
  (digitsToNat (ip ++ fp) : ℚ) / (10 : ℚ) ^ fp.length

/-- Python's leading-zero restriction on decimal integer literals:
`01` is a `SyntaxError`, while `0`, `000` and any literal not starting
with `0` are accepted. -/
def intLitOk (ip : List Char) : Bool :=
  ip.length ≤ 1 || ip.head? ≠ some '0' || ip.all (· = '0')

theorem length_dropWhile_le (p : α → Bool) (l : List α) :
    (l.dropWhile p).length ≤ l.length := by
  induction l with
  | nil => simp
  | cons a l ih =>
    rw [List.dropWhile_cons]
    split <;> simp <;> omega

/-- Tokenizer for the embedded fragment (see module docstring); `none`
models a `SyntaxError` from CPython's tokenizer/parser.  The recursion is
fuel-driven: every step consumes at least one character, so any
`fuel > l.length` gives the tokenization of `l`. -/
def lexGo : Nat → List Char → Option (List Tok)
  | 0, _ => none
  | _ + 1, [] => some []
  | fuel + 1, c :: cs =>
    if isPySpace c then lexGo fuel cs
    else if c = '(' then (lexGo fuel cs).map (Tok.lparen :: ·)
    else if c = ')' then (lexGo fuel cs).map (Tok.rparen :: ·)
    else if c = ',' then (lexGo fuel cs).map (Tok.comma :: ·)
    else if c = '/' then (lexGo fuel cs).map (Tok.slash :: ·)
    else if c = '+' then (lexGo fuel cs).map (Tok.plus :: ·)
    else if c = '-' then (lexGo fuel cs).map (Tok.minus :: ·)
    else if c.isDigit then
      match cs.dropWhile Char.isDigit with
      | '.' :: r2 =>
          let ip := c :: cs.takeWhile Char.isDigit
          let fp := r2.takeWhile Char.isDigit
          (lexGo fuel (r2.dropWhile Char.isDigit)).map (Tok.float (decimalVal ip fp) :: ·)
      | r1 =>
          let ip := c :: cs.takeWhile Char.isDigit
          if intLitOk ip then (lexGo fuel r1).map (Tok.int (digitsToNat ip) :: ·)
          else none
    else if c = '.' then
      let fp := cs.takeWhile Char.isDigit
      if fp.isEmpty then none
      else (lexGo fuel (cs.dropWhile Char.isDigit)).map (Tok.float (decimalVal [] fp) :: ·)
    else if isIdentStart c then
      let idp := c :: cs.takeWhile isIdentChar
      (lexGo fuel (cs.dropWhile isIdentChar)).map (Tok.name (String.mk idp) :: ·)
    else none

/-- Full-string tokenization of a token (`ast.parse` front end). -/
def lexStr (s : String) : Option (List Tok) := lexGo (s.data.length + 1) s.data

mutual

/-- `testlist`: one or more comma-separated expressions; a bare or
parenthesized comma list yields a `Tuple` node, as in Python's grammar. -/
def pTestlist : Nat → List Tok → Option (PyExpr × List Tok)
  | 0, _ => none
  | f + 1, ts =>
    match pExpr f ts with
    | none => none
    | some (e, r) =>
      match r with
      | .comma :: r2 => pTestComma f [e] r2
      | _ => some (e, r)

/-- Continuation of a comma list (at least one comma already consumed, so
the result is a `Tuple`); a trailing comma before `)` or end of input is
allowed. -/
def pTestComma : Nat → List PyExpr → List Tok → Option (PyExpr × List Tok)
  | 0, _, _ => none
  | _ + 1, acc, [] => some (.tuple acc.reverse, [])
  | _ + 1, acc, .rparen :: r => some (.tuple acc.reverse, .rparen :: r)
  | f + 1, acc, ts =>
    match pExpr f ts with
    | none => none
    | some (e, r) =>
      match r with
      | .comma :: r2 => pTestComma f (e :: acc) r2
      | _ => some (.tuple (e :: acc).reverse, r)

/-- Additive level: `term (('+' | '-') term)*`, left associative. -/
def pExpr : Nat → List Tok → Option (PyExpr × List Tok)
  | 0, _ => none
  | f + 1, ts =>
    match pTerm f ts with
    | none => none
    | some (e, r) => pExprLoop f e r

def pExprLoop : Nat → PyExpr → List Tok → Option (PyExpr × List Tok)
  | 0, _, _ => none
  | f + 1, e, .plus :: r =>
    match pTerm f r with
    | none => none
    | some (e2, r2) => pExprLoop f (.binop .add e e2) r2
  | f + 1, e, .minus :: r =>
    match pTerm f r with
    | none => none
    | some (e2, r2) => pExprLoop f (.binop .sub e e2) r2
  | _ + 1, e, r => some (e, r)

/-- Multiplicative level (only `/` occurs in the fragment), left
associative. -/
def pTerm : Nat → List Tok → Option (PyExpr × List Tok)
  | 0, _ => none
  | f + 1, ts =>
    match pFactor f ts with
    | none => none
    | some (e, r) => pTermLoop f e r

def pTermLoop : Nat → PyExpr → List Tok → Option (PyExpr × List Tok)
  | 0, _, _ => none
  | f + 1, e, .slash :: r =>
    match pFactor f r with
    | none => none
    | some (e2, r2) => pTermLoop f (.binop .div e e2) r2
  | _ + 1, e, r => some (e, r)

/-- Unary level: `('+' | '-') factor | atom`. -/
def pFactor : Nat → List Tok → Option (PyExpr × List Tok)
  | 0, _ => none
  | f + 1, .minus :: r =>
    match pFactor f r with
    | none => none
    | some (e, r2) => some (.unary true e, r2)
  | f + 1, .plus :: r =>
    match pFactor f r with
    | none => none
    | some (e, r2) => some (.unary false e, r2)
  | f + 1, ts => pAtom f ts

/-- Atoms: literals, names, `()` and parenthesized testlists. -/
def pAtom : Nat → List Tok → Option (PyExpr × List Tok)
  | 0, _ => none
  | _ + 1, .int n :: r => some (.constInt n, r)
  | _ + 1, .float q :: r => some (.constFloat q, r)
  | _ + 1, .name s :: r => some (.name s, r)
  | f + 1, .lparen :: .rparen :: r => some (.tuple [], r)
  | f + 1, .lparen :: r =>
    match pTestlist f r with
    | some (e, .rparen :: r2) => some (e, r2)
    | _ => none
  | _, _ => none

end

/-- Parse a complete token list as one expression statement; `none` models
a `SyntaxError`.  The fuel bound dominates the recursion depth of the
descent on any input of this length. -/
def parseToks (ts : List Tok) : Option PyExpr :=
  match pTestlist (8 * ts.length + 8) ts with
  | some (e, []) => some e
  | _ => none

mutual

/-- `ast.literal_eval` on the fragment: evaluates `Constant` literals,
unary `+`/`-` applied *directly* to a number literal (CPython's
`_convert_signed_num` does not recurse, so a nested sign such as `--5` is
a caught `ValueError`), and (possibly nested) tuples of literals;
everything else (names, binary operators) is a caught `ValueError`. -/
def literalEvalExpr : PyExpr → Option PyObj
  | .constInt n => some (.int n)
  | .constFloat q => some (.float q)
  | .name _ => none
  | .unary neg e =>
    match e with
    | .constInt n => some (.int (if neg then -(n : Int) else (n : Int)))
    | .constFloat q => some (.float (if neg then -q else q))
    | _ => none
  | .binop _ _ _ => none
  | .tuple elts =>
    match literalEvalList elts with
    | some vs => some (.tuple vs)
    | none => none

/-- Elementwise `literal_eval` of a tuple's children. -/
def literalEvalList : List PyExpr → Option (List PyObj)
  | [] => some []
  | e :: es =>
    match literalEvalExpr e, literalEvalList es with
    | some v, some vs => some (v :: vs)
    | _, _ => none

end

/-- Strategy 1, `ast.literal_eval` on the raw token text.  `none` models a
caught `ValueError`/`SyntaxError`. -/
def quantityParser1 (tok : String) : Option PyObj :=
  match lexStr tok with
  | none => none
  | some ts =>
    match parseToks ts with
    | none => none
    | some e => literalEvalExpr e

/-- `unicodedata.numeric` restricted to the code points relevant here:
ASCII digits and the Unicode vulgar-fraction glyphs.  (The real Unicode
table contains further numeric code points; no claim depends on them.) -/
def unicodeNumericVal (c : Char) : Option ℚ :=
  if c.isDigit then some (digitVal c : ℚ)
  else if c = '½' then some (1 / 2)
  else if c = '⅓' then some (1 / 3)
  else if c = '⅔' then some (2 / 3)
  else if c = '¼' then some (1 / 4)
  else if c = '¾' then some (3 / 4)
  else if c = '⅕' then some (1 / 5)
  else if c = '⅖' then some (2 / 5)
  else if c = '⅗' then some (3 / 5)
  else if c = '⅘' then some (4 / 5)
  else if c = '⅙' then some (1 / 6)
  else if c = '⅚' then some (5 / 6)
  else if c = '⅐' then some (1 / 7)
  else if c = '⅛' then some (1 / 8)
  else if c = '⅜' then some (3 / 8)
  else if c = '⅝' then some (5 / 8)
  else if c = '⅞' then some (7 / 8)
  else if c = '⅑' then some (1 / 9)
  else if c = '⅒' then some (1 / 10)
  else none

/-- Strategy 2, `unicodedata.numeric`: succeeds only on a single-character
token whose code point has a numeric value (multi-character tokens raise a
caught `TypeError`, characters without numeric value a caught
`ValueError`). -/
def quantityParser2 (tok : String) : Option PyObj :=
  match tok.data with
  | [c] => (unicodeNumericVal c).map .float
  | _ => none

/-- Errors arising inside `ConstantMerger.visit`: a `TypeError` from `/`
on non-numeric operands is caught by `QUANTITY_PARSER_ERRORS`; a
`ZeroDivisionError` is not. -/
inductive VisitErr where
  | typeError
  | zeroDivision
deriving DecidableEq, Repr

/-- Python `str()` / f-string formatting of a visit result.  Residual AST
nodes print via the rendering environment (CPython's
`<ast.C object at 0x…>`). -/
def strOfRes (ρ : AstRepr) : VisitRes → String
  | .int n => intStr n
  | .float q => pyFloatRepr q
  | .str s => s
  | v => ρ.res v

/-- Python's `/` as used in `visit_BinOp`: true division of two numbers is
a float; a zero divisor raises `ZeroDivisionError`; any non-numeric
operand (a string or a residual AST node) raises `TypeError`. -/
def pyDiv : VisitRes → VisitRes → Except VisitErr VisitRes
  | .int a, .int b => if b = 0 then .error .zeroDivision else .ok (.float ((a : ℚ) / b))
  | .int a, .float b => if b = 0 then .error .zeroDivision else .ok (.float ((a : ℚ) / b))
  | .float a, .int b => if b = 0 then .error .zeroDivision else .ok (.float (a / (b : ℚ)))
  | .float a, .float b => if b = 0 then .error .zeroDivision else .ok (.float (a / b))
  | _, _ => .error .typeError

/-- `ConstantMerger.visit` (an `ast.NodeTransformer`):
* `visit_Constant` returns the constant's value;
* `visit_BinOp` first visits the children (`generic_visit`), then divides
  for `Div`, renders `f"{left}-{right}"` for `Sub`, and returns the node
  itself (with transformed children) for `Add`;
* `visit_Tuple` renders `"(" + ",".join(map(str, node.elts)) + ")"` over
  the *unvisited* child nodes (it never calls `generic_visit`), so the
  children print as raw AST node objects;
* `Name` and `UnaryOp` nodes have no visitor: `generic_visit` visits their
  children and returns the node unchanged. -/
def ConstantMerger.visit (ρ : AstRepr) : PyExpr → Except VisitErr VisitRes
  | .constInt n => .ok (.int n)
  | .constFloat q => .ok (.float q)
  | .name s => .ok (.nameNode s)
  | .unary neg e => do
    let v ← ConstantMerger.visit ρ e
    .ok (.unaryNode neg v)
  | .binop op l r => do
    let lv ← ConstantMerger.visit ρ l
    let rv ← ConstantMerger.visit ρ r
    match op with
    | .div => pyDiv lv rv
    | .sub => .ok (.str (strOfRes ρ lv ++ "-" ++ strOfRes ρ rv))
    | .add => .ok (.addNode lv rv)
  | .tuple elts =>
    .ok (.str ("(" ++ String.intercalate "," (elts.map ρ.raw) ++ ")"))

/-- Outcome of one classification strategy: a value, a failure caught by
`QUANTITY_PARSER_ERRORS`, or an uncaught error that propagates. -/
inductive StratOut where
  | val (v : PyObj)
  | caught
  | raise (e : PyErr)
deriving Repr

/-- Strategy 3, `ConstantMerger().merge`: `ast.parse` the token text,
visit the tree, take `body[0].value`, and require the result to be a
`float` or `str` (anything else raises a caught `ValueError`,
`"Malformed node"`).  On empty/whitespace-only text `ast.parse` yields an
empty module body, so `body[0]` raises an uncaught `IndexError`; division
by zero during the visit raises an uncaught `ZeroDivisionError`. -/
def ConstantMerger.merge (ρ : AstRepr) (tok : String) : StratOut :=
  match lexStr tok with
  | none => .caught
  | some [] => .raise .indexError
  | some ts =>
    match parseToks ts with
    | none => .caught
    | some e =>
      match ConstantMerger.visit ρ e with
      | .error .zeroDivision => .raise .zeroDivisionError
      | .error .typeError => .caught
      | .ok (.float q) => .val (.float q)
      | .ok (.str s) => .val (.str s)
      | .ok _ => .caught

/-- `IngredientParser.parse_quantity`: try each entry of
`QUANTITY_PARSERS` in order, returning the first parser's result and
absorbing `ValueError`/`TypeError`/`SyntaxError`; when every strategy
fails this way the loop falls through and returns `None`.  Errors outside
the caught tuple propagate to the caller. -/
def parse_quantity (ρ : AstRepr) (tok : String) : Except PyErr (Option PyObj) :=
  match quantityParser1 tok with
  | some v => .ok (some v)
  | none =>
    match quantityParser2 tok with
    | some v => .ok (some v)
    | none =>
      match ConstantMerger.merge ρ tok with
      | .val v => .ok (some v)
      | .caught => .ok none
      | .raise e => .error e

/-- The `Ingredient` dataclass.  The constructor argument order matches
the source's positional construction `Ingredient(name, unit, quantity)`;
the pipeline always fills the fields with token strings. -/
structure Ingredient where
  name : String
  unit : String
  quantity : String
deriving DecidableEq, Repr

/-- Python `str.split()` with no arguments: split on runs of whitespace,
discarding empty strings. -/
def pySplitAux : List Char → List Char → List String
  | [], acc => if acc.isEmpty then [] else [String.mk acc.reverse]
  | c :: cs, acc =>
    if isPySpace c then
      if acc.isEmpty then pySplitAux cs []
      else String.mk acc.reverse :: pySplitAux cs []
    else pySplitAux cs (c :: acc)

/-- `raw_data.split()`. -/
def pySplit (s : String) : List String := pySplitAux s.data []

/-- Python `token.startswith("(")` — true exactly when the first character
is `'('`. -/
def startsParen (t : String) : Bool := t.data.head? = some '('

/-- Python `token.endswith(")")` — true exactly when the last character is
`')'`. -/
def endsParen (t : String) : Bool := t.data.getLast? = some ')'

/-- First phase of `IngredientParser.merge_parens`: scan the tokens
tracking `start`; a token starting with `(` sets `start` to its index
(unconditionally — the `elif` is skipped), and otherwise a token ending
with `)` while `start` is set records the span `(start, n + 1)` and
resets `start`. -/
def findParens : List String → Nat → Option Nat → List (Nat × Nat)
  | [], _, _ => []
  | t :: ts, n, start =>
    if startsParen t then findParens ts (n + 1) (some n)
    else
      match start with
      | some s =>
        if endsParen t then (s, n + 1) :: findParens ts (n + 1) none
        else findParens ts (n + 1) (some s)
      | none => findParens ts (n + 1) none

/-- Second phase of `merge_parens`: replace each recorded span (offset by
the shrinkage so far) with the space-join of its tokens, exactly as the
slice assignment `tokens[start-offset : end-offset] = (" ".join(...),)`
does. -/
def applyParens : List (Nat × Nat) → Nat → List String → List String
  | [], _, toks => toks
  | (s, e) :: rest, offset, toks =>
    let s' := s - offset
    let e' := e - offset
    let merged := String.intercalate " " ((toks.drop s').take (e' - s'))
    applyParens rest (offset + (e - s - 1)) (toks.take s' ++ [merged] ++ toks.drop e')

/-- `IngredientParser.merge_parens`. -/
def merge_parens (toks : List String) : List String :=
  applyParens (findParens toks 0 none) 0 toks

/-- Loop body of `IngredientParser.merge_quantities`: iterate over a copy
of the original tokens; at step `n` let `j = n - offset` point into the
current (shrinking) list.  If the copy's token classifies as a quantity,
read `tokens[j + 1]` (an `IndexError` when `j + 1` is past the end); if
that also classifies, replace `tokens[j]` by
`"(" + tokens[j] + ", " + tokens.pop(j + 1) + ")"`.  The first argument of
the recursion is the rest of the copy, `cur` the current list and `j` the
adjusted index of the present iteration. -/
def mqGo (ρ : AstRepr) : List String → List String → Nat → Except PyErr (List String)
  | [], cur, _ => .ok cur
  | tok :: rest, cur, j => do
    let q ← parse_quantity ρ tok
    match q with
    | none => mqGo ρ rest cur (j + 1)
    | some _ =>
      match cur.get? (j + 1) with
      | none => .error .indexError
      | some nxt => do
        let q2 ← parse_quantity ρ nxt
        match q2 with
        | none => mqGo ρ rest cur (j + 1)
        | some _ =>
          let merged := "(" ++ cur.getD j "" ++ ", " ++ nxt ++ ")"
          mqGo ρ rest (cur.take j ++ [merged] ++ cur.drop (j + 2)) j

/-- `IngredientParser.merge_quantities` (`tokens.copy()` is the original
list). -/
def merge_quantities (ρ : AstRepr) (toks : List String) : Except PyErr (List String) :=
  mqGo ρ toks toks 0

/-- The segmentation loop of `IngredientParser.parse`: walk the merged
tokens with the accumulated `ingredients` and `current_ingredient`; flush
the current group when the token classifies as a quantity and the group
is non-empty, then append the token; the `for`/`else` always appends the
final group. -/
def segGo (ρ : AstRepr) : List String → List (List String) → List String →
    Except PyErr (List (List String))
  | [], groups, cur => .ok (groups ++ [cur])
  | t :: ts, groups, cur => do
    let q ← parse_quantity ρ t
    if q.isSome ∧ cur ≠ [] then segGo ρ ts (groups ++ [cur]) [t]
    else segGo ρ ts groups (cur ++ [t])

/-- Group assembly in `IngredientParser.parse`:
`Ingredient(" ".join(g[2:]), g[1], g[0])` — the argument expressions are
evaluated left to right, and `g[1]` raises `IndexError` when the group
has fewer than two tokens. -/
def assemble : List String → Except PyErr Ingredient
  | q :: u :: rest => .ok ⟨String.intercalate " " rest, u, q⟩
  | _ => .error .indexError

/-- The final `for ingredient in ingredients.copy(): yield Ingredient(…)`
loop: one record per group, stopping at the first uncaught error. -/
def yieldIngredients : List (List String) → Except PyErr (List Ingredient)
  | [] => .ok []
  | g :: gs => do
    let i ← assemble g
    let rest ← yieldIngredients gs
    .ok (i :: rest)

/-- `IngredientParser.parse`.  The Python function is a generator; its
body runs on first consumption and the yielded records are produced one
group at a time, so a consumer that drains it observes either the full
record list or the first uncaught error.  This eager model returns
exactly that observation. -/
def parse (ρ : AstRepr) (raw_data : String) : Except PyErr (List Ingredient) := do
  let tokens := pySplit raw_data
  let tokens := merge_parens tokens
  let tokens ← merge_quantities ρ tokens
  let groups ← segGo ρ tokens [] []
  yieldIngredients groups

/-! ## Claim C1: the six concrete scenarios of spec section 8 -/

/-- C1.  For each of the six concrete scenario inputs in spec section 8,
`parse` applied to that input yields exactly one `Ingredient` record whose
`quantity`, `unit` and `name` fields equal exactly the stated strings
(for any rendering of AST node objects). -/
theorem c1_concrete_scenarios :
    (∀ ρ : AstRepr, parse ρ "1 teaspoon water" =
      .ok [{ name := "water", unit := "teaspoon", quantity := "1" }]) ∧
    (∀ ρ : AstRepr, parse ρ "1 1/2 teaspoon water" =
      .ok [{ name := "water", unit := "teaspoon", quantity := "(1, 1/2)" }]) ∧
    (∀ ρ : AstRepr, parse ρ "1/3 cup water" =
      .ok [{ name := "water", unit := "cup", quantity := "1/3" }]) ∧
    (∀ ρ : AstRepr, parse ρ "10-20 teaspoon water" =
      .ok [{ name := "water", unit := "teaspoon", quantity := "10-20" }]) ∧
    (∀ ρ : AstRepr, parse ρ "1 (14.5 oz) can tomatoes" =
      .ok [{ name := "can tomatoes", unit := "(14.5 oz)", quantity := "1" }]) ∧
    (∀ ρ : AstRepr, parse ρ "1 slice cheese" =
      .ok [{ name := "cheese", unit := "slice", quantity := "1" }]) :=
  ⟨fun _ => rfl, fun _ => rfl, fun _ => rfl, fun _ => rfl, fun _ => rfl, fun _ => rfl⟩

/-! ## Claim C4: tuple rendering in the constant-expression strategy -/

theorem intercalate_pair (sep x y : String) :
    String.intercalate sep [x, y] = x ++ sep ++ y := rfl

/-- C4, counterexample.  The claim as stated is false: on the token
`"(1, 2)"` (which parses to a tuple of the numbers 1 and 2) the strategy
does *not* return `"(1,2)"`; `visit_Tuple` joins `str()` of the raw child
`Constant` nodes, which print as AST object reprs. -/
theorem c4_counterexample :
    ConstantMerger.merge defaultRepr "(1, 2)" ≠ .val (.str "(1,2)") := by
  intro h
  rw [show ConstantMerger.merge defaultRepr "(1, 2)" =
    .val (.str ("(<ast.Constant object at 0x7f3a9c2e4d10>,<ast.Constant object at 0x7f3a9c2e4d10>)"))
    from rfl] at h
  simp only [StratOut.val.injEq, PyObj.str.injEq] at h
  exact absurd h (by decide)

/-- C4, amended.  `visit_Tuple` renders a tuple node as `"("` plus the
comma-join of `str()` applied to the *unvisited* child AST nodes plus
`")"` — i.e. the elements appear as AST object reprs, not as their
numeric values (there are no spaces around the commas).  In particular,
for the token `"(1, 2)"` the strategy returns the comma-join of the two
`Constant` node reprs in parentheses, whatever those reprs are. -/
theorem c4_visit_tuple_renders_raw_nodes :
    (∀ (ρ : AstRepr) (elts : List PyExpr),
      ConstantMerger.visit ρ (.tuple elts) =
        .ok (.str ("(" ++ String.intercalate "," (elts.map ρ.raw) ++ ")"))) ∧
    (∀ ρ : AstRepr,
      ConstantMerger.merge ρ "(1, 2)" =
        .val (.str ("(" ++ ρ.raw (.constInt 1) ++ "," ++ ρ.raw (.constInt 2) ++ ")"))) := by
  refine ⟨fun ρ elts => rfl, fun ρ => ?_⟩
  show StratOut.val (.str ("(" ++ String.intercalate "," [ρ.raw (.constInt 1), ρ.raw (.constInt 2)] ++ ")")) = _
  rw [intercalate_pair]
  simp [String.append_assoc]

/-! ## Claim C3: the parenthesis-folding pass -/

/-- C3, counterexample.  The claim as stated is false: on
`["(a", "(b", "c)"]` (a second `(`-starting token before the first
`)`-ending token) the folded span does *not* begin at the first
`(`-starting token (index 0): the recorded span is `(1, 3)` and folding
yields `["(a", "(b c)"]`, not the single token `"(a (b c)"`. -/
theorem c3_counterexample :
    findParens ["(a", "(b", "c)"] 0 none = [(1, 3)] ∧
    merge_parens ["(a", "(b", "c)"] = ["(a", "(b c)"] ∧
    merge_parens ["(a", "(b", "c)"] ≠ ["(a (b c)"] :=
  ⟨rfl, rfl, by decide⟩

/-- Step equation of `findParens`: a `(`-starting token sets `start` to
its own index (the `elif` is skipped), whatever the previous state. -/
theorem findParens_cons_open {t : String} (ts : List String) (n : Nat) (st : Option Nat)
    (h : startsParen t = true) :
    findParens (t :: ts) n st = findParens ts (n + 1) (some n) := by
  simp only [findParens, h, if_true]

/-- Step equation of `findParens`: with no span open, a token that does
not start with `(` is skipped. -/
theorem findParens_cons_skip {t : String} (ts : List String) (n : Nat)
    (h : startsParen t = false) :
    findParens (t :: ts) n none = findParens ts (n + 1) none := by
  simp only [findParens, h, Bool.false_eq_true, if_false]

/-- Step equation of `findParens`: a `)`-ending token while a span is open
records `(start, n + 1)` and resets the state. -/
theorem findParens_cons_close {t : String} (ts : List String) (n s : Nat)
    (h1 : startsParen t = false) (h2 : endsParen t = true) :
    findParens (t :: ts) n (some s) = (s, n + 1) :: findParens ts (n + 1) none := by
  simp only [findParens, h1, h2, Bool.false_eq_true, if_false, if_true]

/-- Step equation of `findParens`: a token inside an open span that
neither starts with `(` nor ends with `)` leaves the state unchanged. -/
theorem findParens_cons_inside {t : String} (ts : List String) (n s : Nat)
    (h1 : startsParen t = false) (h2 : endsParen t = false) :
    findParens (t :: ts) n (some s) = findParens ts (n + 1) (some s) := by
  simp only [findParens, h1, h2, Bool.false_eq_true, if_false]

/-- Well-formedness of a recorded span list: every span starts no earlier
than the bound, is nonempty, and each later span starts no earlier than
the previous span's end. -/
def SpanChain : Nat → List (Nat × Nat) → Prop
  | _, [] => True
  | n, (s, e) :: rest => n ≤ s ∧ s < e ∧ SpanChain e rest

theorem spanChain_weaken {spans : List (Nat × Nat)} {m k : Nat}
    (h : SpanChain m spans) (hk : k ≤ m) : SpanChain k spans := by
  cases spans with
  | nil => trivial
  | cons p rest =>
    obtain ⟨s, e⟩ := p
    obtain ⟨h1, h2, h3⟩ := h
    exact ⟨by omega, h2, h3⟩

/-- The spans recorded by `findParens` are ordered and in range: starting
the scan at index `n` (with any still-open start at most `n`), every
recorded span starts at or after the open start (resp. `n`), and the
spans are disjoint and left to right. -/
theorem findParens_chain : ∀ (ts : List String) (n : Nat) (st : Option Nat),
    (∀ s₀, st = some s₀ → s₀ ≤ n) → SpanChain (st.getD n) (findParens ts n st) := by
  intro ts
  induction ts with
  | nil =>
    intro n st h
    cases st <;> trivial
  | cons t ts ih =>
    intro n st h
    cases hst : startsParen t with
    | true =>
      have hch : SpanChain n (findParens ts (n + 1) (some n)) := by
        have := ih (n + 1) (some n) (fun s₀ he => by injection he with he; omega)
        simpa using this
      cases st with
      | none =>
        rw [findParens_cons_open _ _ _ hst]
        simpa using hch
      | some s =>
        rw [findParens_cons_open _ _ _ hst]
        simpa using spanChain_weaken hch (h s rfl)
    | false =>
      cases st with
      | none =>
        rw [findParens_cons_skip _ _ hst]
        have := ih (n + 1) none (fun s₀ he => Option.noConfusion he)
        simp only [Option.getD_none] at this ⊢
        exact spanChain_weaken this (by omega)
      | some s =>
        have hsn := h s rfl
        cases het : endsParen t with
        | true =>
          rw [findParens_cons_close _ _ _ hst het]
          refine ⟨le_refl s, by omega, ?_⟩
          have := ih (n + 1) none (fun s₀ he => Option.noConfusion he)
          simpa using this
        | false =>
          rw [findParens_cons_inside _ _ _ hst het]
          have := ih (n + 1) (some s) (fun s₀ he => by injection he with he; omega)
          simpa using this

/-- A prefix containing no `)`-ending token records no span: the scan
passes over it, only moving the `start` state. -/
theorem findParens_no_close : ∀ (pre : List String), (∀ p ∈ pre, endsParen p = false) →
    ∀ (ts : List String) (n : Nat) (st : Option Nat),
      ∃ st', findParens (pre ++ ts) n st = findParens ts (n + pre.length) st' := by
  intro pre
  induction pre with
  | nil =>
    intro _ ts n st
    exact ⟨st, by simp⟩
  | cons p pre ih =>
    intro h ts n st
    have hp : endsParen p = false := h p (by simp)
    have hrec := ih (fun a ha => h a (by simp [ha])) ts (n + 1)
    have hidx : n + 1 + pre.length = n + (p :: pre).length := by
      simp only [List.length_cons]
      omega
    cases hst : startsParen p with
    | true =>
      obtain ⟨st', he⟩ := hrec (some n)
      exact ⟨st', by rw [List.cons_append, findParens_cons_open _ _ _ hst, he, hidx]⟩
    | false =>
      cases st with
      | none =>
        obtain ⟨st', he⟩ := hrec none
        exact ⟨st', by rw [List.cons_append, findParens_cons_skip _ _ hst, he, hidx]⟩
      | some s =>
        obtain ⟨st', he⟩ := hrec (some s)
        exact ⟨st', by rw [List.cons_append, findParens_cons_inside _ _ _ hst hp, he, hidx]⟩

/-- Tokens that neither start with `(` nor end with `)` keep an open span
open and unchanged. -/
theorem findParens_mid : ∀ (mid : List String),
    (∀ t ∈ mid, startsParen t = false ∧ endsParen t = false) →
    ∀ (ts : List String) (n s : Nat),
      findParens (mid ++ ts) n (some s) = findParens ts (n + mid.length) (some s) := by
  intro mid
  induction mid with
  | nil =>
    intro _ ts n s
    simp
  | cons t mid ih =>
    intro h ts n s
    obtain ⟨h1, h2⟩ := h t (by simp)
    rw [List.cons_append, findParens_cons_inside _ _ _ h1 h2,
      ih (fun a ha => h a (by simp [ha])) ts (n + 1) s,
      show n + 1 + mid.length = n + (t :: mid).length from by
        simp only [List.length_cons]
        omega]

/-- Folding spans that all lie beyond position `k` (after the running
offset) never touches the first `k` tokens. -/
theorem applyParens_take_of_chain : ∀ (spans : List (Nat × Nat)) (o k : Nat)
    (toks : List String), SpanChain (o + k) spans → k ≤ toks.length →
    (applyParens spans o toks).take k = toks.take k := by
  intro spans
  induction spans with
  | nil =>
    intro o k toks _ _
    rfl
  | cons p spans ih =>
    obtain ⟨s, e⟩ := p
    intro o k toks hch hk
    obtain ⟨hs, hse, hrest⟩ := hch
    simp only [applyParens]
    rw [ih (o + (e - s - 1)) k _ (spanChain_weaken hrest (by omega)) (by
      simp only [List.length_append, List.length_take, List.length_drop,
        List.length_cons, List.length_nil]
      omega)]
    rw [List.append_assoc, List.take_append_of_le_length (by
      simp only [List.length_take]
      omega)]
    rw [List.take_take, min_eq_left (by omega)]

/-- C3, amended.  At most one open span is active at a time, but a token
starting with `(` seen while a span is already open *restarts* the span
at its own position.  For every token sequence in the claim's scope —
some tokens `pre` containing a `(`-starting token and no `)`-ending one,
then a further `(`-starting token `o`, then tokens `mid` that neither
start a span nor end one, then the first `)`-ending token `cl`, then
anything — the first recorded span begins at `o`'s index (the last
`(`-starting token before `cl`), the folded list keeps every token before
`o` unmerged, and position `pre.length` of the folded list holds the
space-join of the span `o … cl` alone. -/
theorem c3_paren_span_restarts (pre mid suf : List String) (o cl : String)
    (hpre0 : ∃ p ∈ pre, startsParen p = true)
    (hpre : ∀ p ∈ pre, endsParen p = false)
    (ho1 : startsParen o = true) (ho2 : endsParen o = false)
    (hmid : ∀ t ∈ mid, startsParen t = false ∧ endsParen t = false)
    (hcl1 : startsParen cl = false) (hcl2 : endsParen cl = true) :
    (findParens (pre ++ o :: (mid ++ cl :: suf)) 0 none).head? =
      some (pre.length, pre.length + mid.length + 2) ∧
    (merge_parens (pre ++ o :: (mid ++ cl :: suf))).take (pre.length + 1) =
      pre ++ [String.intercalate " " (o :: (mid ++ [cl]))] := by
  obtain ⟨st', hfp0⟩ := findParens_no_close pre hpre (o :: (mid ++ cl :: suf)) 0 none
  have hfp : findParens (pre ++ o :: (mid ++ cl :: suf)) 0 none =
      (pre.length, pre.length + mid.length + 2) ::
        findParens suf (pre.length + mid.length + 2) none := by
    rw [hfp0, findParens_cons_open _ _ _ ho1,
      findParens_mid mid hmid (cl :: suf) (0 + pre.length + 1) (0 + pre.length),
      findParens_cons_close _ _ _ hcl1 hcl2,
      show 0 + pre.length + 1 + mid.length + 1 = pre.length + mid.length + 2 from by omega,
      show 0 + pre.length = pre.length from by omega]
  have htake : (pre ++ o :: (mid ++ cl :: suf)).take pre.length = pre :=
    List.take_left _ _
  have hdrop : (pre ++ o :: (mid ++ cl :: suf)).drop pre.length = o :: (mid ++ cl :: suf) :=
    List.drop_left _ _
  have hchunk : (o :: (mid ++ cl :: suf)).take (mid.length + 2) = o :: (mid ++ [cl]) := by
    have h2 : (mid ++ cl :: suf).take (mid.length + 1) = mid ++ [cl] := by
      rw [List.take_append_eq_append_take, List.take_of_length_le (by omega),
        show mid.length + 1 - mid.length = 1 from by omega]
      rfl
    calc (o :: (mid ++ cl :: suf)).take (mid.length + 2)
        = o :: (mid ++ cl :: suf).take (mid.length + 1) := rfl
      _ = o :: (mid ++ [cl]) := by rw [h2]
  have hdropfar : (pre ++ o :: (mid ++ cl :: suf)).drop (pre.length + mid.length + 2) =
      suf := by
    rw [List.drop_append_eq_append_drop, List.drop_eq_nil_of_le (by omega),
      show pre.length + mid.length + 2 - pre.length = mid.length + 2 from by omega,
      List.nil_append]
    have h2 : (mid ++ cl :: suf).drop (mid.length + 1) = suf := by
      rw [List.drop_append_eq_append_drop, List.drop_eq_nil_of_le (by omega),
        show mid.length + 1 - mid.length = 1 from by omega]
      rfl
    calc (o :: (mid ++ cl :: suf)).drop (mid.length + 2)
        = (mid ++ cl :: suf).drop (mid.length + 1) := rfl
      _ = suf := h2
  have hmp : merge_parens (pre ++ o :: (mid ++ cl :: suf)) =
      applyParens (findParens suf (pre.length + mid.length + 2) none) (mid.length + 1)
        (pre ++ [String.intercalate " " (o :: (mid ++ [cl]))] ++ suf) := by
    rw [merge_parens, hfp]
    simp only [applyParens, Nat.sub_zero]
    rw [show pre.length + mid.length + 2 - pre.length = mid.length + 2 from by omega,
      show 0 + (mid.length + 2 - 1) = mid.length + 1 from by omega,
      htake, hdrop, hchunk, hdropfar]
  refine ⟨by rw [hfp]; rfl, ?_⟩
  rw [hmp]
  have hchain : SpanChain (mid.length + 1 + (pre.length + 1))
      (findParens suf (pre.length + mid.length + 2) none) := by
    have := findParens_chain suf (pre.length + mid.length + 2) none
      (fun s₀ he => Option.noConfusion he)
    simp only [Option.getD_none] at this
    exact spanChain_weaken this (by omega)
  rw [applyParens_take_of_chain _ _ _ _ hchain (by
    simp only [List.length_append, List.length_cons, List.length_nil]
    omega)]
  rw [List.append_assoc, List.take_append_eq_append_take,
    List.take_of_length_le (by omega),
    show pre.length + 1 - pre.length = 1 from by omega]
  rfl

/-- C3, witness for the amended statement: on
`["x", "(a", "(b", "y", "c)", "z"]` the first recorded span is `(2, 5)`
(starting at `"(b"`, the last `(`-starting token before `"c)"`), and the
folded list starts `["x", "(a", "(b y c)"]` with the earlier tokens
unmerged. -/
theorem c3_paren_span_restarts_witness :
    (findParens ["x", "(a", "(b", "y", "c)", "z"] 0 none).head? = some (2, 5) ∧
    (merge_parens ["x", "(a", "(b", "y", "c)", "z"]).take 3 = ["x", "(a", "(b y c)"] := by
  have h := c3_paren_span_restarts ["x", "(a"] ["y"] ["z"] "(b" "c)"
    ⟨"(a", by decide, rfl⟩ (by decide) rfl rfl (by decide) rfl rfl
  refine ⟨h.1, h.2.trans ?_⟩
  decide

/-! ## Claim C7: the strategy chain of `parse_quantity` -/

/-- C7, counterexample.  The claim's "when all three strategies fail it
returns `None` without raising any error" is false: on the token `"1/0"`
strategies 1 and 2 fail, and the constant-expression strategy evaluates
`1 / 0`, whose `ZeroDivisionError` is not in `QUANTITY_PARSER_ERRORS` and
propagates out of classification. -/
theorem c7_counterexample :
    quantityParser1 "1/0" = none ∧
    quantityParser2 "1/0" = none ∧
    parse_quantity defaultRepr "1/0" = .error .zeroDivisionError ∧
    parse_quantity defaultRepr "1/0" ≠ .ok none := by
  refine ⟨rfl, rfl, rfl, ?_⟩
  intro h
  rw [show parse_quantity defaultRepr "1/0" = .error .zeroDivisionError from rfl] at h
  exact Except.noConfusion h

/-- C7, amended.  Classification attempts the literal numeric parse, then
the single-codepoint numeral decode, then the constant-expression
evaluator, in that fixed order, and commits to the first strategy that
succeeds.  When all three strategies fail with an error from
`QUANTITY_PARSER_ERRORS` (`ValueError`/`TypeError`/`SyntaxError`) it
returns "not a quantity" (`None`); an error outside that tuple (such as
the `ZeroDivisionError` of a zero-denominator division in strategy 3)
propagates instead of yielding `None`. -/
theorem c7_strategy_chain :
    (∀ (ρ : AstRepr) (t : String) (v : PyObj),
      quantityParser1 t = some v → parse_quantity ρ t = .ok (some v)) ∧
    (∀ (ρ : AstRepr) (t : String) (v : PyObj),
      quantityParser1 t = none → quantityParser2 t = some v →
      parse_quantity ρ t = .ok (some v)) ∧
    (∀ (ρ : AstRepr) (t : String) (v : PyObj),
      quantityParser1 t = none → quantityParser2 t = none →
      ConstantMerger.merge ρ t = .val v → parse_quantity ρ t = .ok (some v)) ∧
    (∀ (ρ : AstRepr) (t : String),
      quantityParser1 t = none → quantityParser2 t = none →
      ConstantMerger.merge ρ t = .caught → parse_quantity ρ t = .ok none) ∧
    (∀ (ρ : AstRepr) (t : String) (e : PyErr),
      quantityParser1 t = none → quantityParser2 t = none →
      ConstantMerger.merge ρ t = .raise e → parse_quantity ρ t = .error e) := by
  refine ⟨?_, ?_, ?_, ?_, ?_⟩ <;>
    · intros
      simp [parse_quantity, *]

/-- C7, witness: the amended theorem applied at concrete tokens (a plain
word falls through all three strategies to `None`; a vulgar-fraction
glyph is decoded by strategy 2). -/
theorem c7_strategy_chain_witness :
    parse_quantity defaultRepr "water" = .ok none ∧
    parse_quantity defaultRepr "½" = .ok (some (.float (1 / 2))) :=
  ⟨c7_strategy_chain.2.2.2.1 defaultRepr "water" rfl rfl rfl,
   c7_strategy_chain.2.1 defaultRepr "½" (.float (1 / 2)) rfl rfl⟩

/-! ## Claim C9: malformed groups crash assembly -/

theorem assemble_short {g : List String} (h : g.length < 2) :
    assemble g = .error .indexError := by
  match g, h with
  | [], _ => rfl
  | [_], _ => rfl

theorem assemble_long {g : List String} (h : 2 ≤ g.length) :
    ∃ i, assemble g = .ok i := by
  match g, h with
  | q :: u :: rest, _ => exact ⟨_, rfl⟩

theorem yieldIngredients_short {groups : List (List String)}
    (h : ∃ g ∈ groups, g.length < 2) :
    yieldIngredients groups = .error .indexError := by
  induction groups with
  | nil => simp at h
  | cons g gs ih =>
    obtain ⟨g', hg', hlen⟩ := h
    rcases List.mem_cons.mp hg' with rfl | hmem
    · simp [yieldIngredients, assemble_short hlen, Bind.bind, Except.bind]
    · by_cases hshort : g.length < 2
      · simp [yieldIngredients, assemble_short hshort, Bind.bind, Except.bind]
      · obtain ⟨i, hi⟩ := assemble_long (g := g) (by omega)
        simp [yieldIngredients, hi, ih ⟨g', hmem, hlen⟩, Bind.bind, Except.bind]

/-- C9.  For every input whose segmentation produces a group with fewer
than two tokens (for example the empty or whitespace-only input, whose
always-flushed final group is empty), assembling that group performs an
out-of-range index access: consuming `parse`'s output fails with an
`IndexError` instead of returning a record. -/
theorem c9_short_group_is_index_error (ρ : AstRepr) (raw : String)
    (ts2 : List String) (groups : List (List String))
    (h1 : merge_quantities ρ (merge_parens (pySplit raw)) = .ok ts2)
    (h2 : segGo ρ ts2 [] [] = .ok groups)
    (h3 : ∃ g ∈ groups, g.length < 2) :
    parse ρ raw = .error .indexError := by
  simp [parse, h1, h2, yieldIngredients_short h3, Bind.bind, Except.bind]

/-- C9, witness: the empty input; its always-flushed final group is empty,
so consumption raises `IndexError`. -/
theorem c9_short_group_is_index_error_witness :
    parse defaultRepr "" = .error .indexError :=
  c9_short_group_is_index_error defaultRepr "" [] [[]] rfl rfl
    ⟨[], List.mem_singleton.mpr rfl, by decide⟩

/-! ## Claim C10: a trailing quantity token overruns `merge_quantities` -/

/-- Step equation: a copy token that raises propagates immediately. -/
theorem mqGo_cons_raise {ρ : AstRepr} {tok : String} {e : PyErr}
    (rest cur : List String) (j : Nat)
    (h : parse_quantity ρ tok = .error e) :
    mqGo ρ (tok :: rest) cur j = .error e := by
  simp only [mqGo, h, Bind.bind, Except.bind]

/-- Step equation: a non-quantity copy token advances the index. -/
theorem mqGo_cons_none {ρ : AstRepr} {tok : String}
    (rest cur : List String) (j : Nat)
    (h : parse_quantity ρ tok = .ok none) :
    mqGo ρ (tok :: rest) cur j = mqGo ρ rest cur (j + 1) := by
  simp only [mqGo, h, Bind.bind, Except.bind]

/-- Step equation: a quantity copy token with `j + 1` out of range raises
`IndexError` (the read of `tokens[n + 1]`). -/
theorem mqGo_cons_overrun {ρ : AstRepr} {tok : String} {v : PyObj}
    (rest cur : List String) (j : Nat)
    (h : parse_quantity ρ tok = .ok (some v))
    (hg : cur.get? (j + 1) = none) :
    mqGo ρ (tok :: rest) cur j = .error .indexError := by
  simp only [mqGo, h, hg, Bind.bind, Except.bind]

/-- Step equation: a quantity copy token whose in-range successor raises
propagates that error. -/
theorem mqGo_cons_next_raise {ρ : AstRepr} {tok nxt : String} {v : PyObj} {e : PyErr}
    (rest cur : List String) (j : Nat)
    (h : parse_quantity ρ tok = .ok (some v))
    (hg : cur.get? (j + 1) = some nxt)
    (h2 : parse_quantity ρ nxt = .error e) :
    mqGo ρ (tok :: rest) cur j = .error e := by
  simp only [mqGo, h, hg, h2, Bind.bind, Except.bind]

/-- Step equation: a quantity copy token whose successor is not a
quantity merges nothing and advances. -/
theorem mqGo_cons_next_none {ρ : AstRepr} {tok nxt : String} {v : PyObj}
    (rest cur : List String) (j : Nat)
    (h : parse_quantity ρ tok = .ok (some v))
    (hg : cur.get? (j + 1) = some nxt)
    (h2 : parse_quantity ρ nxt = .ok none) :
    mqGo ρ (tok :: rest) cur j = mqGo ρ rest cur (j + 1) := by
  simp only [mqGo, h, hg, h2, Bind.bind, Except.bind]

/-- Step equation: two adjacent quantities merge in place; the adjusted
index stays put (the offset grows together with `n`). -/
theorem mqGo_cons_merge {ρ : AstRepr} {tok nxt : String} {v v2 : PyObj}
    (rest cur : List String) (j : Nat)
    (h : parse_quantity ρ tok = .ok (some v))
    (hg : cur.get? (j + 1) = some nxt)
    (h2 : parse_quantity ρ nxt = .ok (some v2)) :
    mqGo ρ (tok :: rest) cur j =
      mqGo ρ rest (cur.take j ++ ["(" ++ cur.getD j "" ++ ", " ++ nxt ++ ")"] ++ cur.drop (j + 2)) j := by
  simp only [mqGo, h, hg, h2, Bind.bind, Except.bind]

/-- Invariant-carrying induction for `merge_quantities`: at each
iteration the adjusted index `j` satisfies `cur.length = j + rest.length`
and the still-unprocessed suffix of the current list is the tail of the
remaining copy.  If no classification raises and the last copy token
classifies as a quantity, the final iteration evaluates `tokens[j + 1]`
with `j + 1 = cur.length` — an `IndexError`. -/
theorem mqGo_last_quantity (ρ : AstRepr) :
    ∀ (rest cur : List String) (j : Nat),
      cur.length = j + rest.length →
      cur.drop (j + 1) = rest.tail →
      (∀ t ∈ rest, ∃ r, parse_quantity ρ t = .ok r) →
      (∃ t v, rest.getLast? = some t ∧ parse_quantity ρ t = .ok (some v)) →
      mqGo ρ rest cur j = .error .indexError := by
  intro rest
  induction rest with
  | nil =>
    intro cur j _ _ _ hlast
    obtain ⟨t, v, hts, _⟩ := hlast
    simp at hts
  | cons tok rest ih =>
    intro cur j hlen hdrop hok hlast
    cases rest with
    | nil =>
      obtain ⟨t, v, hts, hpq⟩ := hlast
      simp at hts
      subst hts
      have hnone : cur.get? (j + 1) = none := by
        apply List.get?_eq_none.mpr
        simp at hlen
        omega
      exact mqGo_cons_overrun [] cur j hpq hnone
    | cons t2 rest2 =>
      obtain ⟨r, hr⟩ := hok tok (List.mem_cons_self _ _)
      have hget : cur.get? (j + 1) = some t2 := by
        have h0 : cur.get? (j + 1) = (cur.drop (j + 1)).get? 0 := by
          rw [List.get?_drop]
        rw [h0, hdrop]
        rfl
      have hlast' : ∃ t v, (t2 :: rest2).getLast? = some t ∧
          parse_quantity ρ t = .ok (some v) := by
        obtain ⟨t, v, hts, hpq⟩ := hlast
        refine ⟨t, v, ?_, hpq⟩
        rwa [List.getLast?_cons_cons] at hts
      have hok' : ∀ t ∈ t2 :: rest2, ∃ r, parse_quantity ρ t = .ok r :=
        fun t ht => hok t (List.mem_cons_of_mem _ ht)
      have hdrop2 : cur.drop (j + 1 + 1) = (t2 :: rest2).tail := by
        have h1 : cur.drop (j + 1 + 1) = (cur.drop (j + 1)).drop 1 := by
          rw [List.drop_drop]
        rw [h1, hdrop]
        rfl
      obtain ⟨r, hr⟩ := hok tok (List.mem_cons_self _ _)
      cases r with
      | none =>
        rw [mqGo_cons_none _ cur j hr]
        exact ih cur (j + 1) (by simp at hlen ⊢; omega) hdrop2 hok' hlast'
      | some v =>
        obtain ⟨r2, hr2⟩ := hok t2 (List.mem_cons_of_mem _ (List.mem_cons_self _ _))
        cases r2 with
        | none =>
          rw [mqGo_cons_next_none _ cur j hr hget hr2]
          exact ih cur (j + 1) (by simp at hlen ⊢; omega) hdrop2 hok' hlast'
        | some v2 =>
          rw [mqGo_cons_merge _ cur j hr hget hr2]
          have hjlen : j + 2 ≤ cur.length := by simp at hlen; omega
          have hpre : (cur.take j ++ ["(" ++ cur.getD j "" ++ ", " ++ t2 ++ ")"]).length = j + 1 := by
            simp
            omega
          refine ih _ j ?_ ?_ hok' hlast'
          · simp
            simp at hlen
            omega
          · rw [List.drop_left' hpre]
            have h2 : cur.drop (j + 2) = (cur.drop (j + 1)).drop 1 := by
              rw [List.drop_drop]
            rw [h2, hdrop]
            rfl

/-- If `merge_quantities`'s loop completes without an uncaught error, the
classification of every copy token succeeded (each iteration evaluates
`parse_quantity` on its copy token first). -/
theorem mqGo_ok_all_classified (ρ : AstRepr) :
    ∀ (rest cur : List String) (j : Nat) (res : List String),
      mqGo ρ rest cur j = .ok res →
      ∀ t ∈ rest, ∃ r, parse_quantity ρ t = .ok r := by
  intro rest
  induction rest with
  | nil => intro cur j res _ t ht; simp at ht
  | cons tok rest ih =>
    intro cur j res hok t ht
    rcases hq : parse_quantity ρ tok with e | r
    · rw [mqGo_cons_raise rest cur j hq] at hok
      exact Except.noConfusion hok
    · rcases List.mem_cons.mp ht with rfl | hmem
      · exact ⟨r, hq⟩
      · cases r with
        | none =>
          rw [mqGo_cons_none rest cur j hq] at hok
          exact ih cur (j + 1) res hok t hmem
        | some v =>
          cases hget : cur.get? (j + 1) with
          | none =>
            rw [mqGo_cons_overrun rest cur j hq hget] at hok
            exact Except.noConfusion hok
          | some nxt =>
            rcases hq2 : parse_quantity ρ nxt with e2 | r2
            · rw [mqGo_cons_next_raise rest cur j hq hget hq2] at hok
              exact Except.noConfusion hok
            · cases r2 with
              | none =>
                rw [mqGo_cons_next_none rest cur j hq hget hq2] at hok
                exact ih cur (j + 1) res hok t hmem
              | some v2 =>
                rw [mqGo_cons_merge rest cur j hq hget hq2] at hok
                exact ih _ j res hok t hmem

/-- C10, counterexample.  The claim as stated is false: the input
`"1/0 1"` has last folded token `"1"`, which classifies as a quantity,
yet consuming `parse`'s output raises `ZeroDivisionError` (from
classifying `"1/0"` inside the coalescing pass), not an out-of-range
index error. -/
theorem c10_counterexample :
    (merge_parens (pySplit "1/0 1")).getLast? = some "1" ∧
    parse_quantity defaultRepr "1" = .ok (some (.int 1)) ∧
    parse defaultRepr "1/0 1" = .error .zeroDivisionError ∧
    parse defaultRepr "1/0 1" ≠ .error .indexError := by
  refine ⟨rfl, rfl, rfl, ?_⟩
  intro h
  rw [show parse defaultRepr "1/0 1" = .error .zeroDivisionError from rfl] at h
  simp only [Except.error.injEq] at h
  exact PyErr.noConfusion h

/-- C10, amended.  For every input on which classification raises no
uncaught error on any folded token and whose last token (after
parenthesis folding) classifies as a quantity, the quantity-coalescing
pass reads the element one past the end of the token list, so consuming
`parse`'s output raises an out-of-range index error and no `Ingredient`
is produced; consequently `parse` succeeds only on inputs whose final
folded token does not classify as a quantity. -/
theorem c10_trailing_quantity_overruns :
    (∀ (ρ : AstRepr) (raw : String) (t : String) (v : PyObj),
      (merge_parens (pySplit raw)).getLast? = some t →
      (∀ u ∈ merge_parens (pySplit raw), ∃ r, parse_quantity ρ u = .ok r) →
      parse_quantity ρ t = .ok (some v) →
      parse ρ raw = .error .indexError) ∧
    (∀ (ρ : AstRepr) (raw : String) (igs : List Ingredient) (t : String) (v : PyObj),
      parse ρ raw = .ok igs →
      (merge_parens (pySplit raw)).getLast? = some t →
      parse_quantity ρ t ≠ .ok (some v)) := by
  have main : ∀ (ρ : AstRepr) (raw : String) (t : String) (v : PyObj),
      (merge_parens (pySplit raw)).getLast? = some t →
      (∀ u ∈ merge_parens (pySplit raw), ∃ r, parse_quantity ρ u = .ok r) →
      parse_quantity ρ t = .ok (some v) →
      parse ρ raw = .error .indexError := by
    intro ρ raw t v hlast hok hq
    have hmq : merge_quantities ρ (merge_parens (pySplit raw)) = .error .indexError := by
      apply mqGo_last_quantity ρ _ _ 0 (by omega) (by simp) hok ⟨t, v, hlast, hq⟩
    simp [parse, hmq, Bind.bind, Except.bind]
  refine ⟨main, ?_⟩
  intro ρ raw igs t v hparse hlast hq
  rcases hmq : merge_quantities ρ (merge_parens (pySplit raw)) with e | ts2
  · rw [parse] at hparse
    simp only [hmq, Bind.bind, Except.bind] at hparse
    exact Except.noConfusion hparse
  · have hok : ∀ u ∈ merge_parens (pySplit raw), ∃ r, parse_quantity ρ u = .ok r :=
      mqGo_ok_all_classified ρ _ _ 0 ts2 hmq
    have := main ρ raw t v hlast hok hq
    rw [this] at hparse
    exact Except.noConfusion hparse

/-- C10, witness: the single-token input `"1"` (its last folded token is
`"1"`, a quantity) makes consumption fail with `IndexError`. -/
theorem c10_trailing_quantity_overruns_witness :
    parse defaultRepr "1" = .error .indexError := by
  apply c10_trailing_quantity_overruns.1 defaultRepr "1" "1" (.int 1) rfl
  · intro u hu
    rw [show merge_parens (pySplit "1") = ["1"] from rfl] at hu
    have : u = "1" := by simpa using hu
    subst this
    exact ⟨some (.int 1), rfl⟩
  · rfl

/-! ## Claim C8: the segmentation walk -/

/-- Whether a token classifies as a quantity (classification succeeded
with a value). -/
def isQuantityTok (ρ : AstRepr) (t : String) : Bool :=
  match parse_quantity ρ t with
  | .ok (some _) => true
  | _ => false

/-- Spec-side characterization of segmentation, written from the claim's
words: a group starts at `t` and extends over the following non-quantity
tokens; the next group starts exactly at the next token classifying as a
quantity; reaching the end always emits the accumulated group. -/
def chunksFrom (cl : String → Bool) (t : String) (ts : List String) : List (List String) :=
  match hr : ts.dropWhile (fun x => ¬ cl x) with
  | [] => [t :: ts.takeWhile (fun x => ¬ cl x)]
  | u :: us => (t :: ts.takeWhile (fun x => ¬ cl x)) :: chunksFrom cl u us
  termination_by ts.length
  decreasing_by
    have h1 : (ts.dropWhile (fun x => ¬ cl x)).length ≤ ts.length :=
      length_dropWhile_le _ _
    rw [hr] at h1
    simp at h1
    omega

/-- Spec-side segmentation: the very first token always begins the first
group regardless of its classification; a later token begins a new group
exactly when it classifies as a quantity; on empty input the always-
flushed final group is the empty group. -/
def segmentSpec (cl : String → Bool) : List String → List (List String)
  | [] => [[]]
  | t :: ts => chunksFrom cl t ts

/-- `chunksFrom` with an arbitrary non-empty accumulated group. -/
def chunksCont (cl : String → Bool) (cur : List String) (ts : List String) :
    List (List String) :=
  match ts.dropWhile (fun x => ¬ cl x) with
  | [] => [cur ++ ts.takeWhile (fun x => ¬ cl x)]
  | u :: us => (cur ++ ts.takeWhile (fun x => ¬ cl x)) :: chunksFrom cl u us

theorem chunksFrom_eq_chunksCont (cl : String → Bool) (t : String) (ts : List String) :
    chunksFrom cl t ts = chunksCont cl [t] ts := by
  rw [chunksFrom, chunksCont]
  rcases hr : ts.dropWhile (fun x => ¬ cl x) with _ | ⟨u, us⟩ <;> simp

theorem segGo_chunksCont (ρ : AstRepr) :
    ∀ (ts : List String) (groups : List (List String)) (cur : List String),
      cur ≠ [] →
      (∀ t ∈ ts, ∃ r, parse_quantity ρ t = .ok r) →
      segGo ρ ts groups cur = .ok (groups ++ chunksCont (isQuantityTok ρ) cur ts) := by
  intro ts
  induction ts with
  | nil =>
    intro groups cur _ _
    simp [segGo, chunksCont]
  | cons t ts ih =>
    intro groups cur hcur hok
    obtain ⟨r, hr⟩ := hok t (List.mem_cons_self _ _)
    have hok' : ∀ u ∈ ts, ∃ r, parse_quantity ρ u = .ok r :=
      fun u hu => hok u (List.mem_cons_of_mem _ hu)
    cases r with
    | some v =>
      have hcl : isQuantityTok ρ t = true := by simp [isQuantityTok, hr]
      have hstep : segGo ρ (t :: ts) groups cur = segGo ρ ts (groups ++ [cur]) [t] := by
        simp [segGo, hr, Bind.bind, Except.bind, hcur]
      rw [hstep, ih (groups ++ [cur]) [t] (by simp) hok']
      rw [← chunksFrom_eq_chunksCont]
      have hrhs : chunksCont (isQuantityTok ρ) cur (t :: ts) =
          cur :: chunksFrom (isQuantityTok ρ) t ts := by
        rw [chunksCont]
        simp [List.dropWhile_cons, List.takeWhile_cons, hcl]
      rw [hrhs]
      simp
    | none =>
      have hcl : isQuantityTok ρ t = false := by simp [isQuantityTok, hr]
      have hstep : segGo ρ (t :: ts) groups cur = segGo ρ ts groups (cur ++ [t]) := by
        simp [segGo, hr, Bind.bind, Except.bind]
      rw [hstep, ih groups (cur ++ [t]) (by simp) hok']
      have hrhs : chunksCont (isQuantityTok ρ) cur (t :: ts) =
          chunksCont (isQuantityTok ρ) (cur ++ [t]) ts := by
        rw [chunksCont, chunksCont]
        simp [List.dropWhile_cons, List.takeWhile_cons, hcl]
      rw [hrhs]

/-- C8.  In the segmentation walk, a new group is started exactly when
the current token classifies as a quantity and the current group already
holds at least one token; the very first token always begins the first
group regardless of its classification; and on reaching the end of input
the last accumulated group is always emitted, even when empty: whenever
no classification raises, the walk computes exactly the spec-side
`segmentSpec` characterization (and on the empty token list it emits the
single empty group). -/
theorem c8_segmentation_walk :
    (∀ (ρ : AstRepr) (ts : List String),
      (∀ t ∈ ts, ∃ r, parse_quantity ρ t = .ok r) →
      segGo ρ ts [] [] = .ok (segmentSpec (isQuantityTok ρ) ts)) ∧
    (∀ ρ : AstRepr, segGo ρ [] [] [] = .ok [[]]) := by
  constructor
  · intro ρ ts hok
    cases ts with
    | nil => simp [segGo, segmentSpec]
    | cons t ts =>
      obtain ⟨r, hr⟩ := hok t (List.mem_cons_self _ _)
      have hok' : ∀ u ∈ ts, ∃ r, parse_quantity ρ u = .ok r :=
        fun u hu => hok u (List.mem_cons_of_mem _ hu)
      have hstep : segGo ρ (t :: ts) [] [] = segGo ρ ts [] [t] := by
        cases r <;> simp [segGo, hr, Bind.bind, Except.bind]
      rw [hstep, segGo_chunksCont ρ ts [] [t] (by simp) hok']
      rw [segmentSpec, chunksFrom_eq_chunksCont]
      simp
  · intro ρ
    simp [segGo]

/-- C8, witness: the theorem applied to the real classifier on the token
list of scenario 1 (the first token is a quantity, the rest are not). -/
theorem c8_segmentation_walk_witness :
    segGo defaultRepr ["1", "teaspoon", "water"] [] [] =
      .ok (segmentSpec (isQuantityTok defaultRepr) ["1", "teaspoon", "water"]) := by
  apply c8_segmentation_walk.1 defaultRepr
  intro t ht
  simp only [List.mem_cons, List.not_mem_nil, or_false] at ht
  rcases ht with rfl | rfl | rfl
  · exact ⟨some (.int 1), rfl⟩
  · exact ⟨none, rfl⟩
  · exact ⟨none, rfl⟩

/-! ## Decimal-digit infrastructure for the literal lemmas -/

theorem isDigit_toNat {c : Char} (h : c.isDigit = true) : 48 ≤ c.toNat ∧ c.toNat ≤ 57 := by
  simp only [Char.isDigit, ge_iff_le, Bool.and_eq_true, decide_eq_true_eq] at h
  obtain ⟨h1, h2⟩ := h
  rw [UInt32.le_def, BitVec.le_def] at h1 h2
  exact ⟨h1, h2⟩

theorem digitChar_digitVal {c : Char} (h : c.isDigit = true) : digitChar (digitVal c) = c := by
  obtain ⟨h1, _⟩ := isDigit_toNat h
  unfold digitChar digitVal
  have he : c.toNat - 48 + 48 = c.toNat := by omega
  rw [he, Char.ofNat_toNat]

theorem digitVal_lt_ten {c : Char} (h : c.isDigit = true) : digitVal c < 10 := by
  obtain ⟨h1, h2⟩ := isDigit_toNat h
  unfold digitVal
  omega

theorem digitVal_pos {c : Char} (h : c.isDigit = true) (hne : c ≠ '0') : 1 ≤ digitVal c := by
  obtain ⟨h1, h2⟩ := isDigit_toNat h
  have h48 : c.toNat ≠ 48 := by
    intro he
    apply hne
    have := Char.ofNat_toNat c
    rw [he] at this
    exact this.symm
  unfold digitVal
  omega

theorem foldl_digits_ge (l : List Char) : ∀ a : Nat,
    a ≤ List.foldl (fun x c => 10 * x + digitVal c) a l := by
  induction l with
  | nil => intro a; simp
  | cons c l ih =>
    intro a
    calc a ≤ 10 * a + digitVal c := by omega
    _ ≤ _ := ih _

theorem digitsToNat_snoc (l : List Char) (c : Char) :
    digitsToNat (l ++ [c]) = 10 * digitsToNat l + digitVal c := by
  simp [digitsToNat, List.foldl_append]

theorem digitsToNat_pos {c : Char} {rest : List Char}
    (hc : c.isDigit = true) (hne : c ≠ '0') : 1 ≤ digitsToNat (c :: rest) := by
  have h1 := digitVal_pos hc hne
  have h2 := foldl_digits_ge rest (digitVal c)
  simp only [digitsToNat, List.foldl_cons]
  calc 1 ≤ digitVal c := h1
  _ = 10 * 0 + digitVal c := by omega
  _ ≤ _ := by
    have : (10 * 0 + digitVal c) = digitVal c := by omega
    rw [this]
    exact h2

theorem natDigitsAux_fuel_irrel : ∀ f1 f2 n : Nat, n < f1 → n < f2 →
    natDigitsAux f1 n = natDigitsAux f2 n := by
  intro f1
  induction f1 with
  | zero => intro f2 n h1; omega
  | succ f1 ih =>
    intro f2 n h1 h2
    cases f2 with
    | zero => omega
    | succ f2 =>
      rw [natDigitsAux, natDigitsAux]
      by_cases hn : n < 10
      · simp [hn]
      · simp only [hn, if_false]
        have hd : n / 10 < n := Nat.div_lt_self (by omega) (by omega)
        rw [ih f2 (n / 10) (by omega) (by omega)]

theorem natDigits_tenfold (n d : Nat) (hd : d < 10) (hn : 0 < n) :
    natDigits (10 * n + d) = natDigits n ++ [digitChar d] := by
  unfold natDigits
  rw [natDigitsAux]
  have h10 : ¬(10 * n + d < 10) := by omega
  simp only [h10, if_false]
  have hdiv : (10 * n + d) / 10 = n := by omega
  have hmod : (10 * n + d) % 10 = d := by omega
  rw [hdiv, hmod]
  rw [natDigitsAux_fuel_irrel (10 * n + d) (n + 1) n (by omega) (by omega)]

/-- Canonical decimal integer literal: nonempty digit string with no
leading zero (except `"0"` itself).  Rendering an `int` back with an
f-string reproduces exactly such strings. -/
def IsCanonInt (s : String) : Prop :=
  s.data ≠ [] ∧ (∀ c ∈ s.data, c.isDigit = true) ∧
    (s.data.head? ≠ some '0' ∨ s.data = ['0'])

instance (s : String) : Decidable (IsCanonInt s) := by
  unfold IsCanonInt
  infer_instance

/-- The decimal round trip: rendering the value of a canonical digit
string gives back the same characters. -/
theorem natDigits_digitsToNat : ∀ l : List Char, l ≠ [] →
    (∀ c ∈ l, c.isDigit = true) → (l.head? ≠ some '0' ∨ l = ['0']) →
    natDigits (digitsToNat l) = l := by
  intro l
  induction l using List.reverseRecOn with
  | nil => intro h; exact absurd rfl h
  | append_singleton xs c ih =>
    intro _ hdig hcanon
    have hc : c.isDigit = true := hdig c (by simp)
    cases hxs : xs with
    | nil =>
      have hval : digitsToNat ([] ++ [c]) = digitVal c := by
        simp [digitsToNat]
      rw [hval]
      unfold natDigits
      rw [natDigitsAux]
      simp [digitVal_lt_ten hc, digitChar_digitVal hc]
    | cons x xs' =>
      have hxne : xs ≠ [] := by rw [hxs]; simp
      have hxdig : ∀ a ∈ xs, a.isDigit = true :=
        fun a ha => hdig a (List.mem_append_left _ ha)
      have hx0 : x ≠ '0' := by
        rcases hcanon with h | h
        · rw [hxs] at h
          simpa using h
        · exfalso
          have hlen := congrArg List.length h
          rw [hxs] at hlen
          simp at hlen
      have hhead : xs.head? ≠ some '0' ∨ xs = ['0'] := by
        left
        rw [hxs]
        simpa using hx0
      have hpos : 1 ≤ digitsToNat xs := by
        rw [hxs]
        exact digitsToNat_pos (hxdig x (by simp [hxs])) hx0
      rw [digitsToNat_snoc, ← hxs,
        natDigits_tenfold (digitsToNat xs) (digitVal c) (digitVal_lt_ten hc) (by omega),
        digitChar_digitVal hc, ih hxne hxdig hhead]

/-! ## Tokenizer lemmas for canonical numeric literals -/

theorem digit_not_special {c : Char} (h : c.isDigit = true) :
    isPySpace c = false ∧ c ≠ '(' ∧ c ≠ ')' ∧ c ≠ ',' ∧ c ≠ '/' ∧ c ≠ '+' ∧ c ≠ '-' ∧ c ≠ '.' := by
  obtain ⟨h1, h2⟩ := isDigit_toNat h
  have hsp : isPySpace c = false := by
    by_contra hx
    simp only [Bool.not_eq_false] at hx
    simp only [isPySpace, Bool.or_eq_true, decide_eq_true_eq] at hx
    rcases hx with ((((he | he) | he) | he) | he) | he <;>
      (subst he; exact absurd h1 (by decide))
  refine ⟨hsp, ?_, ?_, ?_, ?_, ?_, ?_, ?_⟩ <;>
    (intro he; subst he; exact absurd h1 (by decide))

/-- One tokenizer step on a maximal digit run: the whole run becomes one
integer token when the leading-zero check passes and the next character
(if any) extends neither the digit run nor a float literal. -/
theorem lexGo_int_step (c : Char) (cs rest : List Char) (fuel : Nat)
    (hdigc : c.isDigit = true) (hdigs : ∀ a ∈ cs, a.isDigit = true)
    (hok : intLitOk (c :: cs) = true)
    (hrest : rest = [] ∨ ∃ r rs, rest = r :: rs ∧ r.isDigit = false ∧ r ≠ '.') :
    lexGo (fuel + 1) (c :: (cs ++ rest)) =
      (lexGo fuel rest).map (Tok.int (digitsToNat (c :: cs)) :: ·) := by
  obtain ⟨hsp, hlp, hrp, hcm, hsl, hpl, hmn, hdt⟩ := digit_not_special hdigc
  rw [lexGo]
  simp only [hsp, hlp, hrp, hcm, hsl, hpl, hmn, hdigc, if_false, if_true, Bool.false_eq_true]
  have hdrop : (cs ++ rest).dropWhile Char.isDigit = rest := by
    rw [List.dropWhile_append_of_pos hdigs]
    rcases hrest with rfl | ⟨r, rs, rfl, hr, _⟩
    · rfl
    · rw [List.dropWhile_cons_of_neg (by simp [hr])]
  have htake : (cs ++ rest).takeWhile Char.isDigit = cs := by
    rw [List.takeWhile_append_of_pos hdigs]
    rcases hrest with rfl | ⟨r, rs, rfl, hr, _⟩
    · simp
    · rw [List.takeWhile_cons_of_neg (by simp [hr])]
      simp
  rw [hdrop, htake]
  rcases hrest with rfl | ⟨r, rs, rfl, hr, hrd⟩
  · simp [hok]
  · split
    · rename_i r2 heq
      have : r = '.' := by
        have := congrArg List.head? heq
        simpa using this
      exact absurd this hrd
    · simp [hok]

theorem intLitOk_of_canon {s : String} (h : IsCanonInt s) : intLitOk s.data = true := by
  obtain ⟨hne, hdig, hcanon⟩ := h
  rcases hcanon with h0 | h0
  · simp [intLitOk, h0]
  · simp [intLitOk, h0]

/-- A canonical integer literal lexes as one `Tok.int` chunk before a
non-digit, non-dot remainder. -/
theorem lexGo_canon_chunk (s : String) (rest : List Char) (fuel : Nat)
    (h : IsCanonInt s) (hfuel : 1 ≤ fuel)
    (hrest : rest = [] ∨ ∃ r rs, rest = r :: rs ∧ r.isDigit = false ∧ r ≠ '.') :
    lexGo fuel (s.data ++ rest) =
      (lexGo (fuel - 1) rest).map (Tok.int (digitsToNat s.data) :: ·) := by
  obtain ⟨f, rfl⟩ : ∃ f, fuel = f + 1 := ⟨fuel - 1, by omega⟩
  have hco := intLitOk_of_canon h
  obtain ⟨hne, hdig, _⟩ := h
  rcases hd : s.data with _ | ⟨c, cs⟩
  · exact absurd hd hne
  · have hdigc : c.isDigit = true := hdig c (by rw [hd]; simp)
    have hdigs : ∀ a ∈ cs, a.isDigit = true := fun a ha => hdig a (by rw [hd]; simp [ha])
    have hok : intLitOk (c :: cs) = true := by
      rwa [hd] at hco
    simp only [List.cons_append, Nat.add_sub_cancel]
    exact lexGo_int_step c cs rest f hdigc hdigs hok hrest

theorem lexGo_nil (fuel : Nat) (h : 1 ≤ fuel) : lexGo fuel [] = some [] := by
  obtain ⟨f, rfl⟩ : ∃ f, fuel = f + 1 := ⟨fuel - 1, by omega⟩
  rfl

theorem lexGo_minus (fuel : Nat) (rest : List Char) (h : 1 ≤ fuel) :
    lexGo fuel ('-' :: rest) = (lexGo (fuel - 1) rest).map (Tok.minus :: ·) := by
  obtain ⟨f, rfl⟩ : ∃ f, fuel = f + 1 := ⟨fuel - 1, by omega⟩
  rfl

theorem lexGo_plus (fuel : Nat) (rest : List Char) (h : 1 ≤ fuel) :
    lexGo fuel ('+' :: rest) = (lexGo (fuel - 1) rest).map (Tok.plus :: ·) := by
  obtain ⟨f, rfl⟩ : ∃ f, fuel = f + 1 := ⟨fuel - 1, by omega⟩
  rfl

theorem lexGo_slash (fuel : Nat) (rest : List Char) (h : 1 ≤ fuel) :
    lexGo fuel ('/' :: rest) = (lexGo (fuel - 1) rest).map (Tok.slash :: ·) := by
  obtain ⟨f, rfl⟩ : ∃ f, fuel = f + 1 := ⟨fuel - 1, by omega⟩
  rfl

theorem canon_data_ne_nil {s : String} (h : IsCanonInt s) : s.data ≠ [] := h.1

theorem canon_length_pos {s : String} (h : IsCanonInt s) : 1 ≤ s.data.length := by
  have := canon_data_ne_nil h
  cases hd : s.data with
  | nil => exact absurd hd this
  | cons c cs => simp

theorem lexStr_canon_sub (A B : String) (hA : IsCanonInt A) (hB : IsCanonInt B) :
    lexStr (A ++ "-" ++ B) =
      some [Tok.int (digitsToNat A.data), Tok.minus, Tok.int (digitsToNat B.data)] := by
  have hAl := canon_length_pos hA
  have hBl := canon_length_pos hB
  unfold lexStr
  have hdata : (A ++ "-" ++ B).data = A.data ++ ('-' :: B.data) := by
    simp
  rw [hdata]
  rw [lexGo_canon_chunk A ('-' :: B.data) _ hA
    (by simp only [List.length_append, List.length_cons]; omega)
    (Or.inr ⟨'-', B.data, rfl, by decide, by decide⟩)]
  rw [lexGo_minus _ B.data (by simp only [List.length_append, List.length_cons]; omega)]
  rw [show B.data = B.data ++ [] from by simp]
  rw [lexGo_canon_chunk B [] _ hB
    (by simp only [List.length_append, List.length_cons]; omega) (Or.inl rfl)]
  rw [lexGo_nil _ (by simp only [List.length_append, List.length_cons]; omega)]
  simp

theorem intStr_natCast (n : Nat) : intStr (n : Int) = natStr n := by
  unfold intStr
  rw [if_neg (by omega)]
  simp

/-- Rendering the value of a canonical digit string with an f-string
reproduces the original text. -/
theorem natStr_roundtrip {A : String} (hA : IsCanonInt A) :
    natStr (digitsToNat A.data) = A := by
  unfold natStr
  rw [natDigits_digitsToNat A.data hA.1 hA.2.1 hA.2.2]

/-- A token made of two pieces around a separator has at least three
characters, so `unicodedata.numeric` raises a (caught) `TypeError`. -/
theorem quantityParser2_sep_none (A B : String) (c : Char)
    (hA : A.data ≠ []) :
    quantityParser2 (A ++ String.mk [c] ++ B) = none := by
  unfold quantityParser2
  have hdata : (A ++ String.mk [c] ++ B).data = A.data ++ (c :: B.data) := by
    simp
  rw [hdata]
  cases hd : A.data with
  | nil => exact absurd hd hA
  | cons x xs =>
    cases hxs : xs ++ (c :: B.data) with
    | nil => simp at hxs
    | cons y ys => simp

/-! ## Claim C5: subtraction renders ranges as strings

Positional-notation facts for decimal digit strings, the round trip of
`pyFloatRepr` on canonical decimal float literals, and the tokenization
of float literals, leading to the range-preservation theorem over all
canonical numeric literals. -/

theorem foldl_digits_init : ∀ (l : List Char) (i : Nat),
    List.foldl (fun a c => 10 * a + digitVal c) i l = i * 10 ^ l.length + digitsToNat l := by
  intro l
  induction l with
  | nil =>
    intro i
    simp [digitsToNat]
  | cons c l ih =>
    intro i
    have hc : digitsToNat (c :: l) = digitVal c * 10 ^ l.length + digitsToNat l := by
      have h0 : digitsToNat (c :: l) =
          List.foldl (fun a c => 10 * a + digitVal c) (10 * 0 + digitVal c) l := rfl
      rw [h0, ih (10 * 0 + digitVal c), show 10 * 0 + digitVal c = digitVal c from by omega]
    rw [List.foldl_cons, ih (10 * i + digitVal c), hc, List.length_cons, pow_succ]
    ring

theorem digitsToNat_append (x y : List Char) :
    digitsToNat (x ++ y) = digitsToNat x * 10 ^ y.length + digitsToNat y := by
  have h0 : digitsToNat (x ++ y) =
      List.foldl (fun a c => 10 * a + digitVal c) (digitsToNat x) y := by
    show List.foldl _ 0 (x ++ y) = _
    rw [List.foldl_append]
    rfl
  rw [h0, foldl_digits_init]

theorem digitsToNat_lt : ∀ (l : List Char), (∀ c ∈ l, c.isDigit = true) →
    digitsToNat l < 10 ^ l.length := by
  intro l
  induction l with
  | nil =>
    intro _
    simp [digitsToNat]
  | cons c l ih =>
    intro h
    have hc := digitVal_lt_ten (h c (by simp))
    have hl := ih (fun a ha => h a (by simp [ha]))
    have h0 : digitsToNat (c :: l) =
        List.foldl (fun a c => 10 * a + digitVal c) (10 * 0 + digitVal c) l := rfl
    rw [h0, foldl_digits_init, show 10 * 0 + digitVal c = digitVal c from by omega,
      List.length_cons, pow_succ]
    calc digitVal c * 10 ^ l.length + digitsToNat l
        < digitVal c * 10 ^ l.length + 10 ^ l.length := by omega
      _ = (digitVal c + 1) * 10 ^ l.length := by ring
      _ ≤ 10 * 10 ^ l.length := Nat.mul_le_mul_right _ (by omega)
      _ = 10 ^ l.length * 10 := by ring

/-- Splitting a digit string at a position splits its value by division
and remainder at the matching power of ten. -/
theorem digitsToNat_div_mod (x y : List Char) (hy : ∀ c ∈ y, c.isDigit = true) :
    digitsToNat (x ++ y) / 10 ^ y.length = digitsToNat x ∧
    digitsToNat (x ++ y) % 10 ^ y.length = digitsToNat y := by
  have hlt := digitsToNat_lt y hy
  have hpos : 0 < 10 ^ y.length := pow_pos (by omega) _
  rw [digitsToNat_append, Nat.mul_comm]
  constructor
  · rw [Nat.mul_add_div hpos, Nat.div_eq_of_lt hlt, Nat.add_zero]
  · rw [Nat.mul_add_mod, Nat.mod_eq_of_lt hlt]

theorem digitsToNat_zeros : ∀ (l : List Char), (∀ c ∈ l, c = '0') → digitsToNat l = 0 := by
  intro l
  induction l with
  | nil =>
    intro _
    rfl
  | cons c l ih =>
    intro h
    have hc : c = '0' := h c (by simp)
    subst hc
    have h0 : digitsToNat ('0' :: l) =
        List.foldl (fun a c => 10 * a + digitVal c) (10 * 0 + digitVal '0') l := rfl
    rw [h0, show 10 * 0 + digitVal '0' = 0 from by decide]
    exact ih (fun a ha => h a (by simp [ha]))

theorem dropWhile_head_not {α : Type} (p : α → Bool) :
    ∀ (l : List α) (c : α) (cs : List α), l.dropWhile p = c :: cs → p c = false := by
  intro l
  induction l with
  | nil =>
    intro c cs h
    exact List.noConfusion h
  | cons a l ih =>
    intro c cs h
    rw [List.dropWhile_cons] at h
    by_cases hp : p a = true
    · rw [if_pos hp] at h
      exact ih c cs h
    · rw [if_neg hp] at h
      injection h with h1 _
      subst h1
      simpa using hp

/-- A digit string with its trailing zeros intact is its canonical digit
rendering padded on the left with the stripped leading zeros. -/
theorem replicate_pad_digits (fp : List Char) (hd : ∀ c ∈ fp, c.isDigit = true)
    (hne : fp ≠ []) (hlast : fp.getLast? ≠ some '0') :
    List.replicate (fp.length - (natDigits (digitsToNat fp)).length) '0' ++
      natDigits (digitsToNat fp) = fp := by
  have hsplit : fp.takeWhile (fun b => b == '0') ++ fp.dropWhile (fun b => b == '0') = fp :=
    List.takeWhile_append_dropWhile _ _
  have hz0 : ∀ b ∈ fp.takeWhile (fun b => b == '0'), b = '0' := by
    intro b hb
    have := List.mem_takeWhile_imp hb
    simpa using this
  cases hcore : fp.dropWhile (fun b => b == '0') with
  | nil =>
    exfalso
    apply hlast
    rw [hcore, List.append_nil] at hsplit
    have hall : ∀ b ∈ fp, b = '0' := by
      intro b hb
      rw [← hsplit] at hb
      exact hz0 b hb
    rw [List.getLast?_eq_getLast fp hne, hall _ (List.getLast_mem hne)]
  | cons c core =>
    have hc0 : c ≠ '0' := by
      have := dropWhile_head_not (fun b => b == '0') fp c core hcore
      simpa using this
    have hmemfp : ∀ b ∈ c :: core, b ∈ fp := by
      intro b hb
      rw [← hsplit, hcore]
      exact List.mem_append_right _ hb
    have hcdig : ∀ b ∈ c :: core, b.isDigit = true := fun b hb => hd b (hmemfp b hb)
    have hval : digitsToNat fp = digitsToNat (c :: core) := by
      conv_lhs => rw [← hsplit]
      rw [hcore, digitsToNat_append, digitsToNat_zeros _ hz0, Nat.zero_mul, Nat.zero_add]
    have hcanon : natDigits (digitsToNat (c :: core)) = c :: core :=
      natDigits_digitsToNat (c :: core) (by simp) hcdig (Or.inl (by simpa using hc0))
    rw [hval, hcanon]
    have hlenfp : fp.length = (fp.takeWhile (fun b => b == '0')).length + (c :: core).length := by
      conv_lhs => rw [← hsplit]
      rw [hcore, List.length_append]
    rw [hlenfp, Nat.add_sub_cancel]
    have hz : List.replicate (fp.takeWhile (fun b => b == '0')).length '0' =
        fp.takeWhile (fun b => b == '0') :=
      (List.eq_replicate_length.mpr hz0).symm
    rw [hz]
    conv_rhs => rw [← hsplit]
    rw [hcore]

theorem range'_find?_eq (p : Nat → Bool) : ∀ (len s L : Nat), s ≤ L → L < s + len →
    (∀ k, s ≤ k → k < L → p k = false) → p L = true →
    (List.range' s len).find? p = some L := by
  intro len
  induction len with
  | zero =>
    intro s L h1 h2 _ _
    omega
  | succ len ih =>
    intro s L h1 h2 hmin hp
    show (s :: List.range' (s + 1) len).find? p = some L
    by_cases hsL : s = L
    · subst hsL
      simp only [List.find?_cons, hp]
    · have hps : p s = false := hmin s (le_refl s) (by omega)
      simp only [List.find?_cons, hps]
      exact ih (s + 1) L (by omega) (by omega) (fun k hk1 hk2 => hmin k (by omega) hk2) hp

theorem range_find?_eq (p : Nat → Bool) (n L : Nat) (hL : L < n)
    (hmin : ∀ k, k < L → p k = false) (hp : p L = true) :
    (List.range n).find? p = some L := by
  rw [List.range_eq_range']
  exact range'_find?_eq p n 0 L (by omega) (by omega) (fun k _ hk => hmin k hk) hp

theorem decimalVal_nonneg (ip fp : List Char) : 0 ≤ decimalVal ip fp := by
  unfold decimalVal
  positivity

theorem decimalVal_mul_pow (ip fp : List Char) :
    decimalVal ip fp * (10 : ℚ) ^ fp.length = (digitsToNat (ip ++ fp) : ℚ) := by
  unfold decimalVal
  exact div_mul_cancel₀ _ (by positivity)

theorem decimalVal_den_at (ip fp : List Char) :
    (decimalVal ip fp * (10 : ℚ) ^ fp.length).den = 1 := by
  rw [decimalVal_mul_pow]
  exact Rat.den_natCast _

theorem decimalVal_num_at (ip fp : List Char) :
    (decimalVal ip fp * (10 : ℚ) ^ fp.length).num.natAbs = digitsToNat (ip ++ fp) := by
  rw [decimalVal_mul_pow, Rat.num_natCast]
  exact Int.natAbs_ofNat _

/-- Below the full fractional length the scaled value is not an integer:
its reduced denominator stays above `1` because the digit value is not
divisible by ten. -/
theorem decimalVal_den_ne_one (ip fp : List Char)
    (h10 : ¬ (10 ∣ digitsToNat (ip ++ fp))) (k : Nat) (hk : k < fp.length) :
    (decimalVal ip fp * (10 : ℚ) ^ k).den ≠ 1 := by
  have hLk : fp.length - k + k = fp.length := by omega
  have h1 : decimalVal ip fp * (10 : ℚ) ^ k =
      (digitsToNat (ip ++ fp) : ℚ) / (10 : ℚ) ^ (fp.length - k) := by
    unfold decimalVal
    conv_lhs => rw [← hLk, pow_add]
    rw [← div_div, div_mul_cancel₀ _ (pow_ne_zero k (by norm_num : (10 : ℚ) ≠ 0))]
  rw [h1]
  intro hden
  obtain hq := (Rat.den_eq_one_iff _).mp hden
  have hmpos : fp.length - k ≠ 0 := by omega
  have hz : (((digitsToNat (ip ++ fp) : ℚ) / (10 : ℚ) ^ (fp.length - k)).num : ℚ) *
      (10 : ℚ) ^ (fp.length - k) = (digitsToNat (ip ++ fp) : ℚ) := by
    rw [hq]
    exact div_mul_cancel₀ _ (pow_ne_zero _ (by norm_num))
  have hzZ : ((digitsToNat (ip ++ fp) : ℚ) / (10 : ℚ) ^ (fp.length - k)).num *
      (10 : ℤ) ^ (fp.length - k) = (digitsToNat (ip ++ fp) : ℤ) := by
    exact_mod_cast hz
  have hdvd : (10 : ℤ) ∣ (digitsToNat (ip ++ fp) : ℤ) := by
    rw [← hzZ]
    exact (dvd_pow_self (10 : ℤ) hmpos).mul_left _
  exact h10 (by exact_mod_cast hdvd)

theorem pyFloatRepr_eq_branch1 (q : ℚ)
    (hfind : (List.range 18).find? (fun k => ((|q| * (10 : ℚ) ^ k).den = 1)) = some 0) :
    pyFloatRepr q = (if q < 0 then "-" else "") ++ natStr (|q|).num.natAbs ++ ".0" := by
  simp only [pyFloatRepr, hfind]

theorem pyFloatRepr_eq_branch2 (q : ℚ) (L : Nat)
    (hfind : (List.range 18).find? (fun k => ((|q| * (10 : ℚ) ^ k).den = 1)) = some (L + 1)) :
    pyFloatRepr q =
      (if q < 0 then "-" else "") ++
        natStr ((|q| * (10 : ℚ) ^ (L + 1)).num.natAbs / 10 ^ (L + 1)) ++ "." ++
        String.mk (List.replicate
            ((L + 1) - (natDigits ((|q| * (10 : ℚ) ^ (L + 1)).num.natAbs % 10 ^ (L + 1))).length)
            '0' ++
          natDigits ((|q| * (10 : ℚ) ^ (L + 1)).num.natAbs % 10 ^ (L + 1))) := by
  simp only [pyFloatRepr, hfind]

theorem string_assemble0 (x : List Char) :
    ("" : String) ++ String.mk x ++ ".0" = String.mk (x ++ '.' :: ['0']) := by
  show String.mk (([] ++ x) ++ ['.', '0']) = String.mk (x ++ '.' :: ['0'])
  rw [List.nil_append]

theorem string_assemble (x y : List Char) :
    ("" : String) ++ String.mk x ++ "." ++ String.mk y = String.mk (x ++ '.' :: y) := by
  show String.mk ((([] ++ x) ++ ['.']) ++ y) = String.mk (x ++ '.' :: y)
  rw [List.nil_append, List.append_assoc]
  rfl

/-- Rendering the value of a canonical decimal float literal with an
f-string reproduces the original text: the minimal scaling power is the
fractional length, and integer and fractional digit strings round-trip
(the fractional one through the zero padding). -/
theorem pyFloatRepr_roundtrip (ip fp : List Char)
    (hipne : ip ≠ []) (hipd : ∀ c ∈ ip, c.isDigit = true)
    (hiph : ip.head? ≠ some '0' ∨ ip = ['0'])
    (hfpne : fp ≠ []) (hfpd : ∀ c ∈ fp, c.isDigit = true)
    (hfpl : fp.getLast? ≠ some '0' ∨ fp = ['0'])
    (hlen : fp.length ≤ 17) :
    pyFloatRepr (decimalVal ip fp) = String.mk (ip ++ '.' :: fp) := by
  have hq0 : 0 ≤ decimalVal ip fp := decimalVal_nonneg ip fp
  have habs : |decimalVal ip fp| = decimalVal ip fp := abs_of_nonneg hq0
  have hneg : ¬ decimalVal ip fp < 0 := not_lt.mpr hq0
  have hnum0 : ((digitsToNat ip : ℚ)).num.natAbs = digitsToNat ip := by
    rw [Rat.num_natCast]
    exact Int.natAbs_ofNat _
  by_cases hfp0 : fp = ['0']
  · subst hfp0
    have hqA : decimalVal ip ['0'] = (digitsToNat ip : ℚ) := by
      unfold decimalVal
      rw [digitsToNat_snoc, show digitVal '0' = 0 from by decide,
        show (['0'] : List Char).length = 1 from rfl, pow_one]
      push_cast
      rw [add_zero]
      exact mul_div_cancel_left₀ _ (by norm_num)
    have hfind : (List.range 18).find?
        (fun k => ((|decimalVal ip ['0']| * (10 : ℚ) ^ k).den = 1)) = some 0 := by
      apply range_find?_eq _ 18 0 (by omega) (fun k hk => absurd hk (by omega))
      show decide ((|decimalVal ip ['0']| * (10 : ℚ) ^ 0).den = 1) = true
      apply decide_eq_true
      rw [habs, hqA, pow_zero, mul_one]
      exact Rat.den_natCast _
    rw [pyFloatRepr_eq_branch1 _ hfind, if_neg hneg, habs, hqA, hnum0]
    rw [show natStr (digitsToNat ip) = String.mk (natDigits (digitsToNat ip)) from rfl,
      natDigits_digitsToNat ip hipne hipd hiph]
    exact string_assemble0 ip
  · have hlast : fp.getLast? ≠ some '0' := by
      rcases hfpl with h | h
      · exact h
      · exact absurd h hfp0
    have h10 : ¬ (10 ∣ digitsToNat (ip ++ fp)) := by
      have hgl : fp.dropLast ++ [fp.getLast hfpne] = fp := List.dropLast_append_getLast hfpne
      have hcd : (fp.getLast hfpne).isDigit = true := hfpd _ (List.getLast_mem hfpne)
      have hc0 : fp.getLast hfpne ≠ '0' := by
        intro he
        apply hlast
        rw [List.getLast?_eq_getLast fp hfpne, he]
      have hsn : digitsToNat (ip ++ fp) =
          10 * digitsToNat (ip ++ fp.dropLast) + digitVal (fp.getLast hfpne) := by
        conv_lhs => rw [← hgl]
        rw [← List.append_assoc, digitsToNat_snoc]
      have hpos := digitVal_pos hcd hc0
      have hlt := digitVal_lt_ten hcd
      intro hdvd
      rw [hsn] at hdvd
      omega
    obtain ⟨L, hL⟩ : ∃ m, fp.length = m + 1 := by
      have := List.length_pos.mpr hfpne
      exact ⟨fp.length - 1, by omega⟩
    have hfind : (List.range 18).find?
        (fun k => ((|decimalVal ip fp| * (10 : ℚ) ^ k).den = 1)) = some (L + 1) := by
      rw [← hL]
      apply range_find?_eq _ 18 fp.length (by omega)
      · intro k hk
        show decide ((|decimalVal ip fp| * (10 : ℚ) ^ k).den = 1) = false
        apply decide_eq_false
        rw [habs]
        exact decimalVal_den_ne_one ip fp h10 k hk
      · show decide ((|decimalVal ip fp| * (10 : ℚ) ^ fp.length).den = 1) = true
        apply decide_eq_true
        rw [habs]
        exact decimalVal_den_at ip fp
    rw [pyFloatRepr_eq_branch2 _ L hfind, if_neg hneg, habs, ← hL, decimalVal_num_at ip fp]
    obtain ⟨hdiv, hmod⟩ := digitsToNat_div_mod ip fp hfpd
    rw [hdiv, hmod]
    rw [show natStr (digitsToNat ip) = String.mk (natDigits (digitsToNat ip)) from rfl,
      natDigits_digitsToNat ip hipne hipd hiph]
    rw [replicate_pad_digits fp hfpd hfpne hlast]
    exact string_assemble ip fp

/-- Canonical decimal float literal: integer digits with no leading zero
(except a single `0`), a dot, then at least one fractional digit with no
trailing zero (except a single `0`), at most 15 digits in all.  CPython
renders a float as the shortest decimal string that round-trips through
the IEEE-754 double; decimal literals of at most 15 significant digits
round-trip exactly, so on this class the exact-rational rendering
`pyFloatRepr` agrees with CPython's `str()`. -/
def IsCanonFloat (s : String) : Prop :=
  ∃ ip fp : List Char, s.data = ip ++ '.' :: fp ∧
    ip ≠ [] ∧ (∀ c ∈ ip, c.isDigit = true) ∧ (ip.head? ≠ some '0' ∨ ip = ['0']) ∧
    fp ≠ [] ∧ (∀ c ∈ fp, c.isDigit = true) ∧ (fp.getLast? ≠ some '0' ∨ fp = ['0']) ∧
    ip.length + fp.length ≤ 15

/-- A canonical numeric literal: a canonical integer or float literal. -/
def IsCanonNum (s : String) : Prop := IsCanonInt s ∨ IsCanonFloat s

theorem canonNum_data_ne_nil {s : String} (h : IsCanonNum s) : s.data ≠ [] := by
  rcases h with h | ⟨ip, fp, hdata, hipne, _⟩
  · exact h.1
  · rw [hdata]
    simp [hipne]

/-- One tokenizer step on a float literal: integer digits, a dot, and a
maximal fractional digit run become one `Tok.float` when the next
character (if any) is not a digit. -/
theorem lexGo_float_step (c : Char) (cs fp rest : List Char) (fuel : Nat)
    (hdigc : c.isDigit = true) (hdigs : ∀ a ∈ cs, a.isDigit = true)
    (hfpd : ∀ a ∈ fp, a.isDigit = true)
    (hrest : rest = [] ∨ ∃ r rs, rest = r :: rs ∧ r.isDigit = false) :
    lexGo (fuel + 1) (c :: (cs ++ '.' :: (fp ++ rest))) =
      (lexGo fuel rest).map (Tok.float (decimalVal (c :: cs) fp) :: ·) := by
  obtain ⟨hsp, hlp, hrp, hcm, hsl, hpl, hmn, hdt⟩ := digit_not_special hdigc
  rw [lexGo]
  simp only [hsp, hlp, hrp, hcm, hsl, hpl, hmn, hdigc, if_false, if_true, Bool.false_eq_true]
  have hdrop : (cs ++ '.' :: (fp ++ rest)).dropWhile Char.isDigit = '.' :: (fp ++ rest) := by
    rw [List.dropWhile_append_of_pos hdigs, List.dropWhile_cons_of_neg (by decide)]
  have htake : (cs ++ '.' :: (fp ++ rest)).takeWhile Char.isDigit = cs := by
    rw [List.takeWhile_append_of_pos hdigs, List.takeWhile_cons_of_neg (by decide)]
    simp
  have htake2 : (fp ++ rest).takeWhile Char.isDigit = fp := by
    rw [List.takeWhile_append_of_pos hfpd]
    rcases hrest with rfl | ⟨r, rs, rfl, hr⟩
    · simp
    · rw [List.takeWhile_cons_of_neg (by simp [hr])]
      simp
  have hdrop2 : (fp ++ rest).dropWhile Char.isDigit = rest := by
    rw [List.dropWhile_append_of_pos hfpd]
    rcases hrest with rfl | ⟨r, rs, rfl, hr⟩
    · rfl
    · rw [List.dropWhile_cons_of_neg (by simp [hr])]
  rw [hdrop, htake]
  split
  · rename_i r2 heq
    injection heq with h1 h2
    subst h2
    rw [htake2, hdrop2]
  · rename_i hne
    exact absurd rfl (hne (fp ++ rest))

/-- What `str()` produces for the value carried by a numeric token: the
token renders back to the literal's exact text. -/
def NumRender (s : String) : Tok → Prop
  | Tok.int n => intStr n = s
  | Tok.float q => pyFloatRepr q = s
  | _ => False

theorem numRender_shape {s : String} {t : Tok} (h : NumRender s t) :
    (∃ n, t = Tok.int n ∧ intStr n = s) ∨ (∃ q, t = Tok.float q ∧ pyFloatRepr q = s) := by
  cases t with
  | int n => exact Or.inl ⟨n, rfl, h⟩
  | float q => exact Or.inr ⟨q, rfl, h⟩
  | name s2 => exact h.elim
  | lparen => exact h.elim
  | rparen => exact h.elim
  | comma => exact h.elim
  | slash => exact h.elim
  | plus => exact h.elim
  | minus => exact h.elim

/-- A canonical numeric literal lexes as one token before a non-digit,
non-dot remainder, and that token renders back to the literal text. -/
theorem lexGo_num_chunk (s : String) (rest : List Char) (fuel : Nat)
    (h : IsCanonNum s) (hfuel : 1 ≤ fuel)
    (hrest : rest = [] ∨ ∃ r rs, rest = r :: rs ∧ r.isDigit = false ∧ r ≠ '.') :
    ∃ t : Tok, lexGo fuel (s.data ++ rest) = (lexGo (fuel - 1) rest).map (t :: ·) ∧
      NumRender s t := by
  rcases h with hint | ⟨ip, fp, hdata, hipne, hipd, hiph, hfpne, hfpd, hfpl, hlen⟩
  · refine ⟨Tok.int (digitsToNat s.data), lexGo_canon_chunk s rest fuel hint hfuel hrest, ?_⟩
    show intStr (digitsToNat s.data) = s
    rw [intStr_natCast]
    exact natStr_roundtrip hint
  · obtain ⟨f, rfl⟩ : ∃ f, fuel = f + 1 := ⟨fuel - 1, by omega⟩
    obtain ⟨c, cs, rfl⟩ : ∃ c cs, ip = c :: cs := by
      cases ip with
      | nil => exact absurd rfl hipne
      | cons c cs => exact ⟨c, cs, rfl⟩
    refine ⟨Tok.float (decimalVal (c :: cs) fp), ?_, ?_⟩
    · rw [hdata,
        show (c :: cs ++ '.' :: fp) ++ rest = c :: (cs ++ '.' :: (fp ++ rest)) from by simp,
        Nat.add_sub_cancel]
      exact lexGo_float_step c cs fp rest f (hipd c (by simp))
        (fun a ha => hipd a (by simp [ha])) hfpd
        (by rcases hrest with rfl | ⟨r, rs, rfl, hr, _⟩
            · exact Or.inl rfl
            · exact Or.inr ⟨r, rs, rfl, hr⟩)
    · show pyFloatRepr (decimalVal (c :: cs) fp) = s
      rw [pyFloatRepr_roundtrip (c :: cs) fp hipne hipd hiph hfpne hfpd hfpl (by
        simp only [List.length_cons] at hlen ⊢
        omega), ← hdata]

/-- Lexing `A-B` for canonical numeric literals `A`, `B`. -/
theorem lexStr_num_sub (A B : String) (hA : IsCanonNum A) (hB : IsCanonNum B) :
    ∃ tA tB : Tok, lexStr (A ++ "-" ++ B) = some [tA, Tok.minus, tB] ∧
      NumRender A tA ∧ NumRender B tB := by
  have hAne : A.data ≠ [] := canonNum_data_ne_nil hA
  have hBne : B.data ≠ [] := canonNum_data_ne_nil hB
  have hAl : 1 ≤ A.data.length := List.length_pos.mpr hAne
  have hBl : 1 ≤ B.data.length := List.length_pos.mpr hBne
  obtain ⟨tA, heA, hrA⟩ := lexGo_num_chunk A ('-' :: B.data)
    (A.data.length + B.data.length + 2) hA (by omega)
    (Or.inr ⟨'-', B.data, rfl, by decide, by decide⟩)
  obtain ⟨tB, heB, hrB⟩ := lexGo_num_chunk B []
    (A.data.length + B.data.length + 2 - 1 - 1) hB (by omega) (Or.inl rfl)
  rw [List.append_nil] at heB
  refine ⟨tA, tB, ?_, hrA, hrB⟩
  unfold lexStr
  have hdata : (A ++ "-" ++ B).data = A.data ++ ('-' :: B.data) := by simp
  rw [hdata, show (A.data ++ '-' :: B.data).length + 1 = A.data.length + B.data.length + 2
    from by
      simp only [List.length_append, List.length_cons]
      omega]
  rw [heA, lexGo_minus _ B.data (by omega), heB, lexGo_nil _ (by omega)]
  simp

theorem quantityParser1_of_parse_binop (t : String) (x : Tok) (xs : List Tok)
    (op : PyBinOp) (l r : PyExpr)
    (hlex : lexStr t = some (x :: xs))
    (hparse : parseToks (x :: xs) = some (.binop op l r)) :
    quantityParser1 t = none := by
  unfold quantityParser1
  rw [hlex]
  simp only [hparse]
  rfl

/-- `ConstantMerger.merge` on a token parsing to a `Sub` node renders the
f-string of the visited children. -/
theorem merge_of_parse_sub (ρ : AstRepr) (t : String) (x : Tok) (xs : List Tok)
    (l r : PyExpr) (lv rv : VisitRes)
    (hlex : lexStr t = some (x :: xs))
    (hparse : parseToks (x :: xs) = some (.binop .sub l r))
    (hl : ConstantMerger.visit ρ l = .ok lv) (hr : ConstantMerger.visit ρ r = .ok rv) :
    ConstantMerger.merge ρ t = .val (.str (strOfRes ρ lv ++ "-" ++ strOfRes ρ rv)) := by
  have hv : ConstantMerger.visit ρ (.binop .sub l r) =
      .ok (.str (strOfRes ρ lv ++ "-" ++ strOfRes ρ rv)) := by
    rw [show ConstantMerger.visit ρ (.binop .sub l r) =
      Except.bind (ConstantMerger.visit ρ l) (fun lv =>
        Except.bind (ConstantMerger.visit ρ r) (fun rv =>
          .ok (.str (strOfRes ρ lv ++ "-" ++ strOfRes ρ rv)))) from rfl, hl, hr]
    rfl
  unfold ConstantMerger.merge
  rw [hlex]
  simp only [hparse, hv]

/-- A token lexing to `[tA, -, tB]` for numeric tokens that render back
to `A` and `B` classifies as the string `A-B`. -/
theorem sub_token_classified (ρ : AstRepr) (A B : String) (tA tB : Tok)
    (hAne : A.data ≠ [])
    (hlex : lexStr (A ++ "-" ++ B) = some [tA, Tok.minus, tB])
    (hrA : NumRender A tA) (hrB : NumRender B tB) :
    parse_quantity ρ (A ++ "-" ++ B) = .ok (some (.str (A ++ "-" ++ B))) := by
  have h2 : quantityParser2 (A ++ "-" ++ B) = none := by
    have := quantityParser2_sep_none A B '-' hAne
    simpa using this
  rcases numRender_shape hrA with ⟨a, rfl, hsA⟩ | ⟨qa, rfl, hsA⟩ <;>
    rcases numRender_shape hrB with ⟨b, rfl, hsB⟩ | ⟨qb, rfl, hsB⟩
  · have hparse : parseToks [Tok.int a, Tok.minus, Tok.int b] =
        some (.binop .sub (.constInt a) (.constInt b)) := rfl
    have h1 := quantityParser1_of_parse_binop _ _ _ _ _ _ hlex hparse
    have hmerge := merge_of_parse_sub ρ _ _ _ _ _ _ _ hlex hparse rfl rfl
    have hsA' : strOfRes ρ (VisitRes.int a) = A := hsA
    have hsB' : strOfRes ρ (VisitRes.int b) = B := hsB
    rw [hsA', hsB'] at hmerge
    simp only [parse_quantity, h1, h2, hmerge]
  · have hparse : parseToks [Tok.int a, Tok.minus, Tok.float qb] =
        some (.binop .sub (.constInt a) (.constFloat qb)) := rfl
    have h1 := quantityParser1_of_parse_binop _ _ _ _ _ _ hlex hparse
    have hmerge := merge_of_parse_sub ρ _ _ _ _ _ _ _ hlex hparse rfl rfl
    have hsA' : strOfRes ρ (VisitRes.int a) = A := hsA
    have hsB' : strOfRes ρ (VisitRes.float qb) = B := hsB
    rw [hsA', hsB'] at hmerge
    simp only [parse_quantity, h1, h2, hmerge]
  · have hparse : parseToks [Tok.float qa, Tok.minus, Tok.int b] =
        some (.binop .sub (.constFloat qa) (.constInt b)) := rfl
    have h1 := quantityParser1_of_parse_binop _ _ _ _ _ _ hlex hparse
    have hmerge := merge_of_parse_sub ρ _ _ _ _ _ _ _ hlex hparse rfl rfl
    have hsA' : strOfRes ρ (VisitRes.float qa) = A := hsA
    have hsB' : strOfRes ρ (VisitRes.int b) = B := hsB
    rw [hsA', hsB'] at hmerge
    simp only [parse_quantity, h1, h2, hmerge]
  · have hparse : parseToks [Tok.float qa, Tok.minus, Tok.float qb] =
        some (.binop .sub (.constFloat qa) (.constFloat qb)) := rfl
    have h1 := quantityParser1_of_parse_binop _ _ _ _ _ _ hlex hparse
    have hmerge := merge_of_parse_sub ρ _ _ _ _ _ _ _ hlex hparse rfl rfl
    have hsA' : strOfRes ρ (VisitRes.float qa) = A := hsA
    have hsB' : strOfRes ρ (VisitRes.float qb) = B := hsB
    rw [hsA', hsB'] at hmerge
    simp only [parse_quantity, h1, h2, hmerge]

/-- C5.  For every token `A-B` built from canonical numeric literals
(integer or float), the constant-expression strategy renders the
subtraction back from the parsed operands with `f"{left}-{right}"`, so
classification returns the literal string `A-B` — never the numeric
difference; in particular `parse` on the scenario input yields quantity
`"10-20"`. -/
theorem c5_range_preserved :
    (∀ (ρ : AstRepr) (A B : String), IsCanonNum A → IsCanonNum B →
      parse_quantity ρ (A ++ "-" ++ B) = .ok (some (.str (A ++ "-" ++ B)))) ∧
    (∀ ρ : AstRepr, parse ρ "10-20 teaspoon water" =
      .ok [{ name := "water", unit := "teaspoon", quantity := "10-20" }]) := by
  constructor
  · intro ρ A B hA hB
    obtain ⟨tA, tB, hlex, hrA, hrB⟩ := lexStr_num_sub A B hA hB
    exact sub_token_classified ρ A B tA tB (canonNum_data_ne_nil hA) hlex hrA hrB
  · intro ρ
    rfl

/-- C5, witness: the theorem applied at the integer pair `"10"`, `"20"`
and at the float pair `"0.5"`, `"2.25"`. -/
theorem c5_range_preserved_witness :
    parse_quantity defaultRepr "10-20" = .ok (some (.str "10-20")) ∧
    parse_quantity defaultRepr "0.5-2.25" = .ok (some (.str "0.5-2.25")) := by
  constructor
  · have := c5_range_preserved.1 defaultRepr "10" "20" (Or.inl (by decide)) (Or.inl (by decide))
    simpa using this
  · have := c5_range_preserved.1 defaultRepr "0.5" "2.25"
      (Or.inr ⟨['0'], ['5'], by decide, by decide, by decide, by decide, by decide, by decide,
        by decide, by decide⟩)
      (Or.inr ⟨['2'], ['2', '5'], by decide, by decide, by decide, by decide, by decide,
        by decide, by decide, by decide⟩)
    simpa using this

/-! ## Claim C6: addition nodes are left unrendered -/

/-- Numeric operand shapes for compound tokens: a canonical integer
literal, or a fraction of canonical integer literals with non-zero
denominator. -/
def CanonOperand (s : String) : Prop :=
  IsCanonInt s ∨
    ∃ P Q : String, IsCanonInt P ∧ IsCanonInt Q ∧ Q ≠ "0" ∧ s = P ++ "/" ++ Q

theorem canonOperand_ne_nil {s : String} (h : CanonOperand s) : s.data ≠ [] := by
  rcases h with h | ⟨P, Q, hP, _, _, rfl⟩
  · exact h.1
  · have := canon_length_pos hP
    cases hd : P.data with
    | nil =>
      rw [hd] at this
      simp at this
    | cons c cs => simp [hd]

theorem canon_digits_pos {Q : String} (hQ : IsCanonInt Q) (hne : Q ≠ "0") :
    1 ≤ digitsToNat Q.data := by
  obtain ⟨hQne, hQdig, hQcanon⟩ := hQ
  rcases hQcanon with h0 | h0
  · cases hd : Q.data with
    | nil => exact absurd hd hQne
    | cons c cs =>
      have hc : c.isDigit = true := hQdig c (by rw [hd]; simp)
      have hc0 : c ≠ '0' := by
        intro he
        rw [hd, he] at h0
        simp at h0
      exact digitsToNat_pos hc hc0
  · exfalso
    apply hne
    have : Q = String.mk Q.data := rfl
    rw [this, h0]

/-- Lexing a numeric operand before `'+'` (or the end of the token): one
or three tokens, consuming at most `s.data.length` fuel. -/
theorem lexGo_operand (s : String) (rest : List Char) (fuel : Nat)
    (h : CanonOperand s) (hfuel : s.data.length + 1 ≤ fuel)
    (hrest : rest = [] ∨ ∃ rs, rest = '+' :: rs) :
    ∃ (toks : List Tok) (f' : Nat),
      lexGo fuel (s.data ++ rest) = (lexGo f' rest).map (toks ++ ·) ∧
      fuel - s.data.length ≤ f' ∧
      ((∃ a, toks = [Tok.int a]) ∨
       (∃ p q, toks = [Tok.int p, Tok.slash, Tok.int q] ∧ 1 ≤ q)) := by
  have hrest' : rest = [] ∨ ∃ r rs, rest = r :: rs ∧ r.isDigit = false ∧ r ≠ '.' := by
    rcases hrest with rfl | ⟨rs, rfl⟩
    · exact Or.inl rfl
    · exact Or.inr ⟨'+', rs, rfl, by decide, by decide⟩
  rcases h with hint | ⟨P, Q, hP, hQ, hQne, rfl⟩
  · refine ⟨[Tok.int (digitsToNat s.data)], fuel - 1, ?_, ?_, Or.inl ⟨_, rfl⟩⟩
    · exact lexGo_canon_chunk s rest fuel hint (by omega) hrest'
    · have := canon_length_pos hint
      omega
  · have hPl := canon_length_pos hP
    have hQl := canon_length_pos hQ
    have hdata : (P ++ "/" ++ Q).data = P.data ++ ('/' :: Q.data) := by simp
    have hlen : (P ++ "/" ++ Q).data.length = P.data.length + Q.data.length + 1 := by
      rw [hdata]
      simp only [List.length_append, List.length_cons]
      omega
    rw [hlen] at hfuel
    refine ⟨[Tok.int (digitsToNat P.data), Tok.slash, Tok.int (digitsToNat Q.data)],
      fuel - 3, ?_, by omega, Or.inr ⟨_, _, rfl, canon_digits_pos hQ hQne⟩⟩
    have hassoc : (P ++ "/" ++ Q).data ++ rest = P.data ++ ('/' :: (Q.data ++ rest)) := by
      rw [hdata]
      simp
    rw [hassoc]
    rw [lexGo_canon_chunk P ('/' :: (Q.data ++ rest)) fuel hP (by omega)
      (Or.inr ⟨'/', Q.data ++ rest, rfl, by decide, by decide⟩)]
    rw [lexGo_slash (fuel - 1) (Q.data ++ rest) (by omega)]
    rw [lexGo_canon_chunk Q rest (fuel - 1 - 1) hQ (by omega) hrest']
    have hf3 : fuel - 1 - 1 - 1 = fuel - 3 := by omega
    rw [hf3]
    cases lexGo (fuel - 3) rest <;> rfl

/-- Lexing `A+B` for numeric operands `A`, `B`. -/
theorem lexStr_canon_add (A B : String) (hA : CanonOperand A) (hB : CanonOperand B) :
    ∃ tA tB : List Tok,
      lexStr (A ++ "+" ++ B) = some (tA ++ Tok.plus :: tB) ∧
      ((∃ a, tA = [Tok.int a]) ∨ (∃ p q, tA = [Tok.int p, Tok.slash, Tok.int q] ∧ 1 ≤ q)) ∧
      ((∃ a, tB = [Tok.int a]) ∨ (∃ p q, tB = [Tok.int p, Tok.slash, Tok.int q] ∧ 1 ≤ q)) := by
  unfold lexStr
  have hdata : (A ++ "+" ++ B).data = A.data ++ ('+' :: B.data) := by simp
  have hlen : (A ++ "+" ++ B).data.length = A.data.length + B.data.length + 1 := by
    rw [hdata]
    simp only [List.length_append, List.length_cons]
    omega
  rw [hdata]
  rw [show (A.data ++ '+' :: B.data).length + 1 = A.data.length + B.data.length + 1 + 1 from by
    simp only [List.length_append, List.length_cons]
    omega]
  obtain ⟨tA, f1, he1, hf1, hsA⟩ := lexGo_operand A ('+' :: B.data)
    (A.data.length + B.data.length + 1 + 1) hA (by omega) (Or.inr ⟨B.data, rfl⟩)
  rw [he1]
  rw [lexGo_plus f1 B.data (by omega)]
  rw [show B.data = B.data ++ [] from by simp]
  obtain ⟨tB, f2, he2, hf2, hsB⟩ := lexGo_operand B [] (f1 - 1) hB (by omega) (Or.inl rfl)
  rw [he2]
  rw [lexGo_nil f2 (by omega)]
  refine ⟨tA, tB, ?_, hsA, hsB⟩
  simp

theorem visit_add (ρ : AstRepr) (l r : PyExpr) (lv rv : VisitRes)
    (hl : ConstantMerger.visit ρ l = .ok lv) (hr : ConstantMerger.visit ρ r = .ok rv) :
    ConstantMerger.visit ρ (.binop .add l r) = .ok (.addNode lv rv) := by
  rw [show ConstantMerger.visit ρ (.binop .add l r) =
    Except.bind (ConstantMerger.visit ρ l) (fun lv =>
      Except.bind (ConstantMerger.visit ρ r) (fun rv =>
        .ok (.addNode lv rv))) from rfl, hl, hr]
  rfl

theorem visit_div_pos (ρ : AstRepr) (p q : Nat) (h : 1 ≤ q) :
    ∃ x : ℚ, ConstantMerger.visit ρ (.binop .div (.constInt p) (.constInt q)) = .ok (.float x) := by
  refine ⟨(((p : Nat) : Int) : ℚ) / (((q : Nat) : Int) : ℚ), ?_⟩
  rw [show ConstantMerger.visit ρ (.binop .div (.constInt p) (.constInt q)) =
    pyDiv (.int p) (.int q) from rfl]
  simp only [pyDiv]
  rw [if_neg (by omega)]

theorem merge_of_parse_add (ρ : AstRepr) (t : String) (x : Tok) (xs : List Tok)
    (l r : PyExpr) (lv rv : VisitRes)
    (hlex : lexStr t = some (x :: xs))
    (hparse : parseToks (x :: xs) = some (.binop .add l r))
    (hl : ConstantMerger.visit ρ l = .ok lv) (hr : ConstantMerger.visit ρ r = .ok rv) :
    ConstantMerger.merge ρ t = .caught := by
  unfold ConstantMerger.merge
  rw [hlex]
  simp only [hparse, visit_add ρ l r lv rv hl hr]

/-- C6.  For every token `a+b` built from two numeric subexpressions
(canonical integer literals or fractions with non-zero denominators)
joined by `+`, the constant-expression strategy leaves the addition node
unrendered (`visit_BinOp` returns the node with visited children), the
final `isinstance(result, (float, str))` check fails with the malformed-
expression `ValueError`, and classification of the token returns "not a
quantity" (`None`) rather than a value or an uncaught error. -/
theorem c6_addition_unrendered :
    (∀ (ρ : AstRepr) (l r : PyExpr) (lv rv : VisitRes),
      ConstantMerger.visit ρ l = .ok lv → ConstantMerger.visit ρ r = .ok rv →
      ConstantMerger.visit ρ (.binop .add l r) = .ok (.addNode lv rv)) ∧
    (∀ (ρ : AstRepr) (A B : String), CanonOperand A → CanonOperand B →
      ConstantMerger.merge ρ (A ++ "+" ++ B) = .caught ∧
      parse_quantity ρ (A ++ "+" ++ B) = .ok none) := by
  refine ⟨visit_add, ?_⟩
  intro ρ A B hA hB
  obtain ⟨tA, tB, hlex, hsA, hsB⟩ := lexStr_canon_add A B hA hB
  have h2 : quantityParser2 (A ++ "+" ++ B) = none := by
    have := quantityParser2_sep_none A B '+' (canonOperand_ne_nil hA)
    simpa using this
  rcases hsA with ⟨a, rfl⟩ | ⟨p, q, rfl, hq⟩ <;>
    rcases hsB with ⟨b, rfl⟩ | ⟨p2, q2, rfl, hq2⟩
  · have hparse : parseToks (Tok.int a :: [Tok.plus, Tok.int b]) =
        some (.binop .add (.constInt a) (.constInt b)) := rfl
    have hmerge := merge_of_parse_add ρ _ _ _ _ _ _ _ hlex hparse rfl rfl
    have h1 := quantityParser1_of_parse_binop _ _ _ _ _ _ hlex hparse
    exact ⟨hmerge, by simp only [parse_quantity, h1, h2, hmerge]⟩
  · obtain ⟨x2, hx2⟩ := visit_div_pos ρ p2 q2 hq2
    have hparse : parseToks (Tok.int a :: [Tok.plus, Tok.int p2, Tok.slash, Tok.int q2]) =
        some (.binop .add (.constInt a) (.binop .div (.constInt p2) (.constInt q2))) := rfl
    have hmerge := merge_of_parse_add ρ _ _ _ _ _ _ _ hlex hparse rfl hx2
    have h1 := quantityParser1_of_parse_binop _ _ _ _ _ _ hlex hparse
    exact ⟨hmerge, by simp only [parse_quantity, h1, h2, hmerge]⟩
  · obtain ⟨x1, hx1⟩ := visit_div_pos ρ p q hq
    have hparse : parseToks (Tok.int p :: [Tok.slash, Tok.int q, Tok.plus, Tok.int b]) =
        some (.binop .add (.binop .div (.constInt p) (.constInt q)) (.constInt b)) := rfl
    have hmerge := merge_of_parse_add ρ _ _ _ _ _ _ _ hlex hparse hx1 rfl
    have h1 := quantityParser1_of_parse_binop _ _ _ _ _ _ hlex hparse
    exact ⟨hmerge, by simp only [parse_quantity, h1, h2, hmerge]⟩
  · obtain ⟨x1, hx1⟩ := visit_div_pos ρ p q hq
    obtain ⟨x2, hx2⟩ := visit_div_pos ρ p2 q2 hq2
    have hparse : parseToks
        (Tok.int p :: [Tok.slash, Tok.int q, Tok.plus, Tok.int p2, Tok.slash, Tok.int q2]) =
        some (.binop .add (.binop .div (.constInt p) (.constInt q))
          (.binop .div (.constInt p2) (.constInt q2))) := rfl
    have hmerge := merge_of_parse_add ρ _ _ _ _ _ _ _ hlex hparse hx1 hx2
    have h1 := quantityParser1_of_parse_binop _ _ _ _ _ _ hlex hparse
    exact ⟨hmerge, by simp only [parse_quantity, h1, h2, hmerge]⟩

/-- C6, witness: the compound fraction `"1/2+1/4"`. -/
theorem c6_addition_unrendered_witness :
    ConstantMerger.merge defaultRepr "1/2+1/4" = .caught ∧
    parse_quantity defaultRepr "1/2+1/4" = .ok none :=
  c6_addition_unrendered.2 defaultRepr "1/2" "1/4"
    (Or.inr ⟨"1", "2", by decide, by decide, by decide, rfl⟩)
    (Or.inr ⟨"1", "4", by decide, by decide, by decide, rfl⟩)

/-! ## Claim C2: the mixed-number merge law -/

def PlainTok (s : String) : Prop :=
  s ≠ "" ∧ ∀ c ∈ s.data, isPySpace c = false ∧ c ≠ '(' ∧ c ≠ ')'

instance (s : String) : Decidable (PlainTok s) := by
  unfold PlainTok
  infer_instance

theorem pySplitAux_push (l : List Char) :
    ∀ (cs acc : List Char), (∀ c ∈ l, isPySpace c = false) →
      pySplitAux (l ++ cs) acc = pySplitAux cs (l.reverse ++ acc) := by
  induction l with
  | nil => intro cs acc _; simp
  | cons c l ih =>
    intro cs acc h
    have hc : isPySpace c = false := (h c (by simp))
    rw [List.cons_append, pySplitAux]
    simp only [hc, Bool.false_eq_true, if_false]
    rw [ih cs (c :: acc) (fun a ha => h a (by simp [ha]))]
    simp

theorem pySplitAux_space (cs acc : List Char) (h : acc ≠ []) :
    pySplitAux (' ' :: cs) acc = String.mk acc.reverse :: pySplitAux cs [] := by
  rw [pySplitAux]
  simp [isPySpace, h]

theorem pySplitAux_end (acc : List Char) (h : acc ≠ []) :
    pySplitAux [] acc = [String.mk acc.reverse] := by
  rw [pySplitAux]
  simp [h]

theorem pySplit_four (A B u nm : String)
    (hA : PlainTok A) (hB : PlainTok B) (hu : PlainTok u) (hnm : PlainTok nm) :
    pySplit (A ++ " " ++ B ++ " " ++ u ++ " " ++ nm) = [A, B, u, nm] := by
  have hdata : (A ++ " " ++ B ++ " " ++ u ++ " " ++ nm).data =
      A.data ++ (' ' :: (B.data ++ (' ' :: (u.data ++ (' ' :: nm.data))))) := by
    simp
  have hne : ∀ {s : String}, PlainTok s → s.data ≠ [] := by
    intro s hs he
    apply hs.1
    have h1 : s = String.mk s.data := rfl
    rw [h1, he]
  have hrev : ∀ {s : String}, String.mk s.data.reverse.reverse = s := by
    intro s
    simp
  unfold pySplit
  rw [hdata]
  rw [pySplitAux_push A.data _ [] (fun c hc => (hA.2 c hc).1)]
  rw [List.append_nil]
  rw [pySplitAux_space _ _ (by simpa using hne hA)]
  rw [pySplitAux_push B.data _ [] (fun c hc => (hB.2 c hc).1)]
  rw [List.append_nil]
  rw [pySplitAux_space _ _ (by simpa using hne hB)]
  rw [pySplitAux_push u.data _ [] (fun c hc => (hu.2 c hc).1)]
  rw [List.append_nil]
  rw [pySplitAux_space _ _ (by simpa using hne hu)]
  rw [show nm.data = nm.data ++ [] from by simp]
  rw [pySplitAux_push nm.data [] [] (fun c hc => (hnm.2 c hc).1)]
  rw [List.append_nil]
  rw [pySplitAux_end _ (by simpa using hne hnm)]
  simp [hrev]

theorem plain_not_parens {s : String} (h : PlainTok s) :
    startsParen s = false ∧ endsParen s = false := by
  constructor
  · unfold startsParen
    cases hd : s.data with
    | nil => rfl
    | cons c cs =>
      have := (h.2 c (by rw [hd]; simp)).2.1
      simp [this]
  · unfold endsParen
    cases hl : s.data.getLast? with
    | none => rfl
    | some c =>
      have hmem : c ∈ s.data := List.mem_of_getLast?_eq_some hl
      have := (h.2 c hmem).2.2
      simp [this]

/-- With no parenthesis characters in any token, the folding pass leaves
the four tokens unchanged. -/
theorem merge_parens_plain_four (A B u nm : String)
    (hA : PlainTok A) (hB : PlainTok B) (hu : PlainTok u) (hnm : PlainTok nm) :
    merge_parens [A, B, u, nm] = [A, B, u, nm] := by
  obtain ⟨hA1, _⟩ := plain_not_parens hA
  obtain ⟨hB1, _⟩ := plain_not_parens hB
  obtain ⟨hu1, _⟩ := plain_not_parens hu
  obtain ⟨hnm1, _⟩ := plain_not_parens hnm
  unfold merge_parens
  rw [show findParens [A, B, u, nm] 0 none = [] from by
    simp [findParens, hA1, hB1, hu1, hnm1]]
  rfl

/-- C2, counterexample.  The claim as stated is false: the four tokens of
`"(1,2) 1 cup wa)"` satisfy its hypotheses (the first two classify as
quantities, the last two do not), yet parenthesis folding collapses the
whole line into one token, segmentation produces a single one-token
group, and consuming `parse`'s output raises `IndexError` instead of
yielding an Ingredient with quantity `"((1,2), 1)"`. -/
theorem c2_counterexample :
    parse_quantity defaultRepr "(1,2)" = .ok (some (.tuple [.int 1, .int 2])) ∧
    parse_quantity defaultRepr "1" = .ok (some (.int 1)) ∧
    parse_quantity defaultRepr "cup" = .ok none ∧
    parse_quantity defaultRepr "wa)" = .ok none ∧
    parse defaultRepr "(1,2) 1 cup wa)" = .error .indexError ∧
    parse defaultRepr "(1,2) 1 cup wa)" ≠
      .ok [{ name := "wa)", unit := "cup", quantity := "((1,2), 1)" }] := by
  refine ⟨rfl, rfl, rfl, rfl, rfl, ?_⟩
  intro h
  rw [show parse defaultRepr "(1,2) 1 cup wa)" = .error .indexError from rfl] at h
  exact Except.noConfusion h

/-- C2, amended.  For every input `"A B unit name"` whose four tokens are
non-empty, contain no whitespace and no parenthesis characters, where `A`
and `B` classify as quantities, `unit` and `name` do not, and
classification of the merged token does not raise, `parse` yields a
single `Ingredient` whose quantity field is the string `"(A, B)"` built
from the two original token texts (with a space after the comma), not
from their classified values. -/
theorem c2_mixed_number_merge (ρ : AstRepr) (A B u nm : String) (vA vB : PyObj)
    (r : Option PyObj)
    (hA : PlainTok A) (hB : PlainTok B) (hu : PlainTok u) (hnm : PlainTok nm)
    (hqA : parse_quantity ρ A = .ok (some vA))
    (hqB : parse_quantity ρ B = .ok (some vB))
    (hqu : parse_quantity ρ u = .ok none)
    (hqnm : parse_quantity ρ nm = .ok none)
    (hcomp : parse_quantity ρ ("(" ++ A ++ ", " ++ B ++ ")") = .ok r) :
    parse ρ (A ++ " " ++ B ++ " " ++ u ++ " " ++ nm) =
      .ok [{ name := nm, unit := u, quantity := "(" ++ A ++ ", " ++ B ++ ")" }] := by
  have hsplit := pySplit_four A B u nm hA hB hu hnm
  have hmp := merge_parens_plain_four A B u nm hA hB hu hnm
  have hmq : merge_quantities ρ [A, B, u, nm] = .ok ["(" ++ A ++ ", " ++ B ++ ")", u, nm] := by
    unfold merge_quantities
    rw [mqGo_cons_merge [B, u, nm] [A, B, u, nm] 0 hqA (by rfl) hqB]
    rw [show List.take 0 [A, B, u, nm] ++
        ["(" ++ List.getD [A, B, u, nm] 0 "" ++ ", " ++ B ++ ")"] ++
        List.drop (0 + 2) [A, B, u, nm] = ["(" ++ A ++ ", " ++ B ++ ")", u, nm] from rfl]
    rw [mqGo_cons_next_none [u, nm] ["(" ++ A ++ ", " ++ B ++ ")", u, nm] 0 hqB (by rfl) hqu]
    rw [mqGo_cons_none [nm] ["(" ++ A ++ ", " ++ B ++ ")", u, nm] (0 + 1) hqu]
    rw [mqGo_cons_none [] ["(" ++ A ++ ", " ++ B ++ ")", u, nm] (0 + 1 + 1) hqnm]
    rfl
  have hseg : segGo ρ ["(" ++ A ++ ", " ++ B ++ ")", u, nm] [] [] =
      .ok [["(" ++ A ++ ", " ++ B ++ ")", u, nm]] := by
    simp only [segGo, hcomp, hqu, hqnm, Bind.bind, Except.bind]
    simp
  simp only [parse, hsplit, hmp, hmq, hseg, Bind.bind, Except.bind, yieldIngredients, assemble]
  rfl

/-- C2, witness for the amended statement: `"1 2 cup water"` (here the
merged token `"(1, 2)"` itself classifies via `literal_eval` as a
tuple). -/
theorem c2_mixed_number_merge_witness :
    parse defaultRepr "1 2 cup water" =
      .ok [{ name := "water", unit := "cup", quantity := "(1, 2)" }] :=
  c2_mixed_number_merge defaultRepr "1" "2" "cup" "water" (.int 1) (.int 2)
    (some (.tuple [.int 1, .int 2]))
    (by decide) (by decide) (by decide) (by decide) rfl rfl rfl rfl rfl
